import Mathlib

/-!
Verification development for the elucidate-chess repository's core services:
the PGN parsing/export service (`app/services/pgn.py`), the engine analysis
service (`app/services/engine.py`) and the date normalization helper
(`app/schemas/mutations.py`).

The services delegate chess rules, FEN/SAN/UCI codecs and PGN reading to the
python-chess library.  That library is embedded here faithfully from its
documented semantics (squares are `rank*8 + file` with a1 = 0, forgiving PGN
reading that collects errors on the game object, the seven tag roster header
defaults, en-passant printed in FEN only when a legal en-passant capture
exists, and so on); the service-layer functions are translated line by line
from the repository source.
-/

set_option maxRecDepth 20000

namespace Elucidate

/-- Side to move / piece colour. -/
inductive Color where
  | white
  | black
deriving DecidableEq, Repr

/-- Opposite colour. -/
def Color.other : Color → Color
  | .white => .black
  | .black => .white

/-- Chess piece kinds, as in python-chess `PIECE_TYPES`. -/
inductive PieceType where
  | pawn
  | knight
  | bishop
  | rook
  | queen
  | king
deriving DecidableEq, Repr

/-- A coloured piece. -/
structure Piece where
  color : Color
  ptype : PieceType
deriving DecidableEq, Repr

/-- A move: from-square, to-square (both `rank*8 + file`, a1 = 0) and an
optional promotion piece, as in python-chess `Move`. -/
structure Move where
  fromSq : Nat
  toSq : Nat
  promo : Option PieceType
deriving DecidableEq, Repr

/-- The null move (python-chess `Move.null()`). -/
def Move.null : Move := ⟨0, 0, none⟩

/-- Board state, as in python-chess `Board`: 64 cells (index `rank*8 + file`),
side to move, the four standard castling rights, en-passant target square,
halfmove clock and fullmove number. -/
structure Board where
  cells : List (Option Piece)
  turn : Color
  castleWK : Bool
  castleWQ : Bool
  castleBK : Bool
  castleBQ : Bool
  ep : Option Nat
  halfmove : Nat
  fullmove : Nat
deriving DecidableEq, Repr

/-- Piece (or none) on a square. -/
def Board.pieceAt (b : Board) (s : Nat) : Option Piece :=
  (b.cells.getD s none)

/-- Replace the content of a square. -/
def Board.setPiece (b : Board) (s : Nat) (p : Option Piece) : Board :=
  { b with cells := b.cells.set s p }

/-- Offset a square by a (file, rank) delta, returning `none` when the result
leaves the board.  All generated target squares go through this function. -/
def shift (s : Nat) (df dr : Int) : Option Nat :=
  let f : Int := (s % 8 : Nat) + df
  let r : Int := (s / 8 : Nat) + dr
  if 0 ≤ f ∧ f < 8 ∧ 0 ≤ r ∧ r < 8 then some (8 * r + f).toNat else none

/-- Knight move offsets. -/
def knightOffsets : List (Int × Int) :=
  [(1, 2), (2, 1), (2, -1), (1, -2), (-1, -2), (-2, -1), (-2, 1), (-1, 2)]

/-- King move offsets. -/
def kingOffsets : List (Int × Int) :=
  [(1, 0), (1, 1), (0, 1), (-1, 1), (-1, 0), (-1, -1), (0, -1), (1, -1)]

/-- Rook / orthogonal ray directions. -/
def rookDirs : List (Int × Int) := [(1, 0), (-1, 0), (0, 1), (0, -1)]

/-- Bishop / diagonal ray directions. -/
def bishopDirs : List (Int × Int) := [(1, 1), (1, -1), (-1, 1), (-1, -1)]

/-- Walk a sliding-piece ray: collect empty squares, stop at the first
occupied square (which is kept when it holds an enemy piece).  Fuel-based so
that the kernel can evaluate it. -/
def rayAux (b : Board) (c : Color) (df dr : Int) : Nat → Nat → List Nat
  | 0, _ => []
  | fuel + 1, cur =>
    match shift cur df dr with
    | none => []
    | some t =>
      match b.pieceAt t with
      | none => t :: rayAux b c df dr fuel t
      | some p => if p.color = c then [] else [t]

/-- Squares a slider of colour `c` on `s` reaches in direction `(df, dr)`. -/
def ray (b : Board) (c : Color) (s : Nat) (df dr : Int) : List Nat :=
  rayAux b c df dr 7 s

/-- First occupied square along a ray from `s`, if any. -/
def firstAlong (b : Board) (df dr : Int) : Nat → Nat → Option Piece
  | 0, _ => none
  | fuel + 1, cur =>
    match shift cur df dr with
    | none => none
    | some t =>
      match b.pieceAt t with
      | none => firstAlong b df dr fuel t
      | some p => some p

/-- Is `sq` attacked by some piece of colour `c`?  (python-chess
`Board.is_attacked_by`.) -/
def Board.attacked (b : Board) (c : Color) (sq : Nat) : Bool :=
  (knightOffsets.any fun d =>
    (shift sq d.1 d.2).any fun t => b.pieceAt t = some ⟨c, .knight⟩) ||
  (kingOffsets.any fun d =>
    (shift sq d.1 d.2).any fun t => b.pieceAt t = some ⟨c, .king⟩) ||
  (let dr : Int := if c = .white then -1 else 1
   [(-1 : Int), 1].any fun df =>
     (shift sq df dr).any fun t => b.pieceAt t = some ⟨c, .pawn⟩) ||
  (rookDirs.any fun d =>
    match firstAlong b d.1 d.2 7 sq with
    | some p => p.color = c && (p.ptype = .rook || p.ptype = .queen)
    | none => false) ||
  (bishopDirs.any fun d =>
    match firstAlong b d.1 d.2 7 sq with
    | some p => p.color = c && (p.ptype = .bishop || p.ptype = .queen)
    | none => false)

/-- Square of the king of colour `c`, if present. -/
def Board.kingSquare (b : Board) (c : Color) : Option Nat :=
  (List.range 64).find? fun s => b.pieceAt s = some ⟨c, .king⟩

/-- Is the square empty? -/
def Board.empty (b : Board) (s : Nat) : Bool := b.pieceAt s = none

/-- Does the square hold a piece of the opponent of `c`? -/
def Board.enemyAt (b : Board) (c : Color) (s : Nat) : Bool :=
  (b.pieceAt s).any fun p => p.color ≠ c

/-- Moves for one pawn target square: four promotion moves on the last rank,
one plain move otherwise (python-chess generates queen, rook, bishop, knight
promotions). -/
def pawnTargets (c : Color) (s t : Nat) : List Move :=
  let promoRank : Nat := if c = .white then 7 else 0
  if t / 8 = promoRank then
    [⟨s, t, some .queen⟩, ⟨s, t, some .rook⟩, ⟨s, t, some .bishop⟩,
     ⟨s, t, some .knight⟩]
  else [⟨s, t, none⟩]

/-- Pseudo-legal pawn moves from square `s`: single and double pushes onto
empty squares, and diagonal captures of enemy pieces or of the (empty)
en-passant target square. -/
def pawnMoves (b : Board) (c : Color) (s : Nat) : List Move :=
  let dir : Int := if c = .white then 1 else -1
  let startRank : Nat := if c = .white then 1 else 6
  let pushes :=
    match shift s 0 dir with
    | none => []
    | some t =>
      if b.empty t then
        pawnTargets c s t ++
          (if s / 8 = startRank then
            match shift s 0 (2 * dir) with
            | some t2 => if b.empty t2 then [Move.mk s t2 none] else []
            | none => []
          else [])
      else []
  let captures :=
    [(-1 : Int), 1].foldr (fun df acc =>
      (match shift s df dir with
       | none => []
       | some t =>
         if b.enemyAt c t || (b.ep = some t && b.empty t) then
           pawnTargets c s t
         else []) ++ acc) []
  pushes ++ captures

/-- Pseudo-legal jumps (knight or king steps) from `s`. -/
def jumpMoves (b : Board) (c : Color) (s : Nat) (offs : List (Int × Int)) :
    List Move :=
  offs.foldr (fun d acc =>
    (match shift s d.1 d.2 with
     | none => []
     | some t => if (b.pieceAt t).any (fun p => p.color = c) then [] else
         [Move.mk s t none]) ++ acc) []

/-- Pseudo-legal slider moves from `s` along the given directions. -/
def slideMoves (b : Board) (c : Color) (s : Nat) (dirs : List (Int × Int)) :
    List Move :=
  dirs.foldr (fun d acc => (ray b c s d.1 d.2).map (fun t => Move.mk s t none) ++ acc) []

/-- Pseudo-legal moves of the piece standing on `s` (none when the square is
empty or holds an opponent piece); castling is generated separately. -/
def pieceMoves (b : Board) (s : Nat) : List Move :=
  match b.pieceAt s with
  | some p =>
    if p.color = b.turn then
      match p.ptype with
      | .pawn => pawnMoves b p.color s
      | .knight => jumpMoves b p.color s knightOffsets
      | .bishop => slideMoves b p.color s bishopDirs
      | .rook => slideMoves b p.color s rookDirs
      | .queen => slideMoves b p.color s (rookDirs ++ bishopDirs)
      | .king => jumpMoves b p.color s kingOffsets
    else []
  | none => []

/-- Castling moves for the side to move, with the python-chess conditions:
the right is present, king and rook stand on their home squares, the squares
between them are empty, and the king's path (start, transit, landing) is not
attacked. -/
def castlingMoves (b : Board) : List Move :=
  if b.turn = .white then
    (if b.castleWK && b.pieceAt 4 = some ⟨.white, .king⟩ &&
        b.pieceAt 7 = some ⟨.white, .rook⟩ && b.empty 5 && b.empty 6 &&
        !b.attacked .black 4 && !b.attacked .black 5 && !b.attacked .black 6
     then [Move.mk 4 6 none] else []) ++
    (if b.castleWQ && b.pieceAt 4 = some ⟨.white, .king⟩ &&
        b.pieceAt 0 = some ⟨.white, .rook⟩ && b.empty 1 && b.empty 2 &&
        b.empty 3 && !b.attacked .black 4 && !b.attacked .black 3 &&
        !b.attacked .black 2
     then [Move.mk 4 2 none] else [])
  else
    (if b.castleBK && b.pieceAt 60 = some ⟨.black, .king⟩ &&
        b.pieceAt 63 = some ⟨.black, .rook⟩ && b.empty 61 && b.empty 62 &&
        !b.attacked .white 60 && !b.attacked .white 61 && !b.attacked .white 62
     then [Move.mk 60 62 none] else []) ++
    (if b.castleBQ && b.pieceAt 60 = some ⟨.black, .king⟩ &&
        b.pieceAt 56 = some ⟨.black, .rook⟩ && b.empty 57 && b.empty 58 &&
        b.empty 59 && !b.attacked .white 60 && !b.attacked .white 59 &&
        !b.attacked .white 58
     then [Move.mk 60 58 none] else [])

/-- All pseudo-legal moves of the side to move. -/
def Board.pseudoMoves (b : Board) : List Move :=
  ((List.range 64).map (pieceMoves b)).flatten ++ castlingMoves b

/-- Is the move an en-passant capture?  (python-chess `Board.is_en_passant`:
the en-passant square is the target, a pawn stands on the origin, the step is
diagonal by one rank, and the target square is empty.) -/
def Board.isEnPassant (b : Board) (m : Move) : Bool :=
  b.ep = some m.toSq &&
  (b.pieceAt m.fromSq).any (fun p => p.ptype = .pawn) &&
  ((m.toSq : Int) - (m.fromSq : Int) = 7 || (m.toSq : Int) - (m.fromSq : Int) = 9 ||
   (m.toSq : Int) - (m.fromSq : Int) = -7 || (m.toSq : Int) - (m.fromSq : Int) = -9) &&
  b.pieceAt m.toSq = none

/-- Is the move a capture?  (python-chess `Board.is_capture`: the target is
occupied by the opponent, or it is an en-passant capture.) -/
def Board.isCapture (b : Board) (m : Move) : Bool :=
  b.enemyAt b.turn m.toSq || b.isEnPassant m

/-- Is the move a castling move?  (python-chess `Board.is_castling`: a king
moves by more than one file.) -/
def Board.isCastling (b : Board) (m : Move) : Bool :=
  (b.pieceAt m.fromSq).any (fun p => p.ptype = .king) &&
  ((m.toSq % 8 : Int) - (m.fromSq % 8 : Int) ≥ 2 ∨
   (m.fromSq % 8 : Int) - (m.toSq % 8 : Int) ≥ 2)

/-- Apply a move, mirroring python-chess `Board.push`: counters first, early
return for the null move, then capture / en-passant / promotion / castling
mechanics, castling-rights bookkeeping, en-passant target for double pushes,
and the turn flip.  (python-chess asserts that the origin square is occupied;
that unreachable case leaves the position unchanged apart from the counters
and the turn, matching no caller in the repository.) -/
def Board.push (b : Board) (m : Move) : Board :=
  let fullmove' := if b.turn = .black then b.fullmove + 1 else b.fullmove
  if m = Move.null then
    { b with ep := none, halfmove := b.halfmove + 1, fullmove := fullmove',
             turn := b.turn.other }
  else
    match b.pieceAt m.fromSq with
    | none =>
      { b with ep := none, halfmove := b.halfmove + 1, fullmove := fullmove',
               turn := b.turn.other }
    | some pc =>
      let zeroing := pc.ptype = .pawn || b.enemyAt b.turn m.toSq
      let wasEp := b.isEnPassant m
      let epVictim : Nat := if b.turn = .white then m.toSq - 8 else m.toSq + 8
      let placed : Piece := ⟨pc.color, m.promo.getD pc.ptype⟩
      let b1 := b.setPiece m.fromSq none
      let b2 := if wasEp then b1.setPiece epVictim none else b1
      let b3 := b2.setPiece m.toSq (some placed)
      let b4 :=
        if b.isCastling m then
          let r := m.fromSq / 8
          if m.toSq % 8 = 6 then
            (b3.setPiece (8 * r + 7) none).setPiece (8 * r + 5)
              (some ⟨pc.color, .rook⟩)
          else
            (b3.setPiece (8 * r) none).setPiece (8 * r + 3)
              (some ⟨pc.color, .rook⟩)
        else b3
      let doublePush := pc.ptype = .pawn &&
        (m.toSq = m.fromSq + 16 || m.fromSq = m.toSq + 16)
      let kingMoved (c : Color) := pc.ptype = .king && pc.color = c
      { cells := b4.cells
        turn := b.turn.other
        castleWK := b.castleWK && m.fromSq ≠ 7 && m.toSq ≠ 7 && !kingMoved .white
        castleWQ := b.castleWQ && m.fromSq ≠ 0 && m.toSq ≠ 0 && !kingMoved .white
        castleBK := b.castleBK && m.fromSq ≠ 63 && m.toSq ≠ 63 && !kingMoved .black
        castleBQ := b.castleBQ && m.fromSq ≠ 56 && m.toSq ≠ 56 && !kingMoved .black
        ep := if doublePush then some ((m.fromSq + m.toSq) / 2) else none
        halfmove := if zeroing then 0 else b.halfmove + 1
        fullmove := fullmove' }

/-- Does applying `m` leave the moving side's own king attacked?  (python-chess
`Board.is_into_check`; positions without a king never count as in check.) -/
def Board.intoCheck (b : Board) (m : Move) : Bool :=
  let b' := b.push m
  match b'.kingSquare b.turn with
  | none => false
  | some k => b'.attacked b.turn.other k

/-- Fully legal moves: pseudo-legal moves that do not leave the own king in
check (python-chess `Board.legal_moves`). -/
def Board.legalMoves (b : Board) : List Move :=
  b.pseudoMoves.filter fun m => !b.intoCheck m

/-- Is the side to move in check? -/
def Board.isCheck (b : Board) : Bool :=
  match b.kingSquare b.turn with
  | none => false
  | some k => b.attacked b.turn.other k

/-- Is the side to move checkmated?  (python-chess `Board.is_checkmate`:
in check and without legal moves.) -/
def Board.isCheckmate (b : Board) : Bool :=
  b.isCheck && b.legalMoves.isEmpty

/-- File letter of a file index. -/
def fileChar : Nat → Char
  | 0 => 'a' | 1 => 'b' | 2 => 'c' | 3 => 'd' | 4 => 'e' | 5 => 'f'
  | 6 => 'g' | _ => 'h'

/-- Rank digit of a rank index. -/
def rankChar : Nat → Char
  | 0 => '1' | 1 => '2' | 2 => '3' | 3 => '4' | 4 => '5' | 5 => '6'
  | 6 => '7' | _ => '8'

/-- File index of a file letter. -/
def fileVal : Char → Option Nat
  | 'a' => some 0 | 'b' => some 1 | 'c' => some 2 | 'd' => some 3
  | 'e' => some 4 | 'f' => some 5 | 'g' => some 6 | 'h' => some 7
  | _ => none

/-- Rank index of a rank digit. -/
def rankVal : Char → Option Nat
  | '1' => some 0 | '2' => some 1 | '3' => some 2 | '4' => some 3
  | '5' => some 4 | '6' => some 5 | '7' => some 6 | '8' => some 7
  | _ => none

/-- Coordinate name of a square (python-chess `SQUARE_NAMES`). -/
def squareNameChars (s : Nat) : List Char := [fileChar (s % 8), rankChar (s / 8)]

/-- Square denoted by a file letter and a rank digit. -/
def parseSquareChars (cf cr : Char) : Option Nat := do
  let f ← fileVal cf
  let r ← rankVal cr
  pure (8 * r + f)

/-- FEN symbol of a piece (white upper case, black lower case). -/
def pieceChar : Piece → Char
  | ⟨.white, .pawn⟩ => 'P' | ⟨.white, .knight⟩ => 'N' | ⟨.white, .bishop⟩ => 'B'
  | ⟨.white, .rook⟩ => 'R' | ⟨.white, .queen⟩ => 'Q' | ⟨.white, .king⟩ => 'K'
  | ⟨.black, .pawn⟩ => 'p' | ⟨.black, .knight⟩ => 'n' | ⟨.black, .bishop⟩ => 'b'
  | ⟨.black, .rook⟩ => 'r' | ⟨.black, .queen⟩ => 'q' | ⟨.black, .king⟩ => 'k'

/-- Piece denoted by a FEN symbol. -/
def pieceFromChar : Char → Option Piece
  | 'P' => some ⟨.white, .pawn⟩ | 'N' => some ⟨.white, .knight⟩
  | 'B' => some ⟨.white, .bishop⟩ | 'R' => some ⟨.white, .rook⟩
  | 'Q' => some ⟨.white, .queen⟩ | 'K' => some ⟨.white, .king⟩
  | 'p' => some ⟨.black, .pawn⟩ | 'n' => some ⟨.black, .knight⟩
  | 'b' => some ⟨.black, .bishop⟩ | 'r' => some ⟨.black, .rook⟩
  | 'q' => some ⟨.black, .queen⟩ | 'k' => some ⟨.black, .king⟩
  | _ => none

/-- Lower-case piece symbol (python-chess `piece_symbol`). -/
def pieceSymbol : PieceType → Char
  | .pawn => 'p' | .knight => 'n' | .bishop => 'b' | .rook => 'r'
  | .queen => 'q' | .king => 'k'

/-- Piece type denoted by a lower-case symbol (python-chess `PIECE_SYMBOLS`
lookup, as used by `Move.from_uci`). -/
def symbolVal : Char → Option PieceType
  | 'p' => some .pawn | 'n' => some .knight | 'b' => some .bishop
  | 'r' => some .rook | 'q' => some .queen | 'k' => some .king
  | _ => none

/-- Decimal rendering of a natural number (fuel-based so the kernel can
evaluate it). -/
def natStrAux : Nat → Nat → List Char
  | 0, _ => []
  | fuel + 1, n =>
    if n < 10 then [Nat.digitChar n]
    else natStrAux fuel (n / 10) ++ [Nat.digitChar (n % 10)]

/-- Decimal rendering of a natural number. -/
def natStr (n : Nat) : List Char := natStrAux (n + 1) n

/-- Value of a decimal digit. -/
def digitVal (c : Char) : Option Nat :=
  let n := c.toNat
  if 48 ≤ n && n ≤ 57 then some (n - 48) else none

/-- Fold a digit string into a value. -/
def digitsGo : List Char → Nat → Option Nat
  | [], acc => some acc
  | c :: cs, acc =>
    match digitVal c with
    | some d => digitsGo cs (acc * 10 + d)
    | none => none

/-- Value of a non-empty digit string. -/
def digitsVal : List Char → Option Nat
  | [] => none
  | c :: cs => digitsGo (c :: cs) 0

/-- Python `int(...)` on a string: optional sign followed by digits (the
whitespace and underscore tolerance of the builtin is not exercised by the
repository's inputs). -/
def pyIntChars : List Char → Option Int
  | '-' :: rest => (digitsVal rest).map fun n => -(n : Int)
  | '+' :: rest => (digitsVal rest).map fun n => (n : Int)
  | cs => (digitsVal cs).map fun n => (n : Int)

/-- Python `int(...)` on a `String`. -/
def pyInt (s : String) : Option Int := pyIntChars s.data

/-- Digit with value `1..8` (FEN empty-run length). -/
def digitVal18 (c : Char) : Option Nat :=
  match digitVal c with
  | some 0 => none
  | some d => some d
  | none => none

/-- Print one FEN rank (run-length encoding of empties). -/
def printRankAux : List (Option Piece) → Nat → List Char
  | [], run => if run = 0 then [] else [Nat.digitChar run]
  | none :: rest, run => printRankAux rest (run + 1)
  | some p :: rest, run =>
    (if run = 0 then [] else [Nat.digitChar run]) ++ pieceChar p :: printRankAux rest 0

/-- Cells of rank `r` (files a..h) of a board. -/
def Board.row (b : Board) (r : Nat) : List (Option Piece) :=
  (List.range 8).map fun f => b.pieceAt (8 * r + f)

/-- Join character lists with a single separator character. -/
def joinSep (sep : Char) : List (List Char) → List Char
  | [] => []
  | [x] => x
  | x :: y :: rest => x ++ sep :: joinSep sep (y :: rest)

/-- FEN board field: ranks 8 down to 1, separated by '/'. -/
def printBoardChars (b : Board) : List Char :=
  joinSep '/' ((List.range 8).reverse.map fun r => printRankAux (b.row r) 0)

/-- Parse one FEN rank; python-chess rejects two consecutive digits. -/
def parseRankAux : List Char → Bool → Option (List (Option Piece))
  | [], _ => some []
  | c :: cs, lastDigit =>
    match digitVal18 c with
    | some n =>
      if lastDigit then none
      else (parseRankAux cs true).map fun rest => List.replicate n none ++ rest
    | none =>
      match pieceFromChar c with
      | some p => (parseRankAux cs false).map fun rest => some p :: rest
      | none => none

/-- Parse one FEN rank, requiring exactly 8 cells. -/
def parseRank (cs : List Char) : Option (List (Option Piece)) := do
  let r ← parseRankAux cs false
  if r.length = 8 then some r else none

/-- Split a character list on a separator character. -/
def splitOnChar (sep : Char) : List Char → List (List Char)
  | [] => [[]]
  | c :: cs =>
    let rest := splitOnChar sep cs
    if c = sep then [] :: rest
    else
      match rest with
      | r :: rs => (c :: r) :: rs
      | [] => [[c]]

/-- Split on runs of spaces, dropping empty pieces (python `str.split()`). -/
def splitWs (cs : List Char) : List (List Char) :=
  (splitOnChar ' ' cs).filter fun p => p ≠ []

/-- Parse the FEN board field. -/
def parseBoardChars (cs : List Char) : Option (List (Option Piece)) := do
  let rows := splitOnChar '/' cs
  if rows.length = 8 then do
    let parsed ← rows.mapM parseRank
    pure parsed.reverse.flatten
  else none

/-- En-passant square printed in a FEN: python-chess `Board.fen()` defaults
to `en_passant="legal"`, printing the square only when a legal en-passant
capture exists. -/
def Board.legalEpSquare (b : Board) : Option Nat :=
  if b.ep.isSome && b.legalMoves.any (fun m => b.isEnPassant m) then b.ep
  else none

/-- FEN castling field from the four rights. -/
def printCastling (wk wq bk bq : Bool) : List Char :=
  let cs := (if wk then ['K'] else []) ++ (if wq then ['Q'] else []) ++
    (if bk then ['k'] else []) ++ (if bq then ['q'] else [])
  if cs = [] then ['-'] else cs

/-- FEN castling field. -/
def printCastlingChars (b : Board) : List Char :=
  printCastling b.castleWK b.castleWQ b.castleBK b.castleBQ

/-- FEN text of a board (python-chess `Board.fen()`). -/
def Board.fen (b : Board) : String :=
  String.mk <|
    printBoardChars b ++ [' '] ++
    (if b.turn = .white then ['w'] else ['b']) ++ [' '] ++
    printCastlingChars b ++ [' '] ++
    (match b.legalEpSquare with
     | some e => squareNameChars e
     | none => ['-']) ++ [' '] ++
    natStr b.halfmove ++ [' '] ++ natStr b.fullmove

/-- Parse the FEN castling field: '-' or upper-case rights followed by
lower-case rights, at most two of each (the python-chess castling regex,
restricted to the standard-chess letters exercised by this repository). -/
def parseCastlingChars (cs : List Char) : Option (Bool × Bool × Bool × Bool) :=
  if cs = ['-'] then some (false, false, false, false)
  else
    let ups := cs.takeWhile fun c => c = 'K' || c = 'Q'
    let lows := cs.dropWhile fun c => c = 'K' || c = 'Q'
    if lows.all (fun c => c = 'k' || c = 'q') && ups.length ≤ 2 &&
        lows.length ≤ 2 && cs ≠ [] then
      some (cs.contains 'K', cs.contains 'Q', cs.contains 'k', cs.contains 'q')
    else none

/-- FEN side-to-move field ("w" by default). -/
def parseTurnField : Option (List Char) → Option Color
  | none => some Color.white
  | some ['w'] => some Color.white
  | some ['b'] => some Color.black
  | some _ => none

/-- FEN castling field (no rights by default). -/
def parseCastleField : Option (List Char) → Option (Bool × Bool × Bool × Bool)
  | none => some (false, false, false, false)
  | some cast => parseCastlingChars cast

/-- FEN en-passant field ("-" or a square name, none by default). -/
def parseEpField : Option (List Char) → Option (Option Nat)
  | none => some none
  | some cs =>
    if cs = ['-'] then some none
    else
      match cs with
      | [cf, cr] => (parseSquareChars cf cr).map some
      | _ => none

/-- FEN halfmove clock field (0 by default, negatives rejected). -/
def parseHalfmoveField : Option (List Char) → Option Nat
  | none => some 0
  | some cs => do
    let v ← pyIntChars cs
    if v < 0 then none else some v.toNat

/-- FEN fullmove number field (1 by default, negatives rejected, clamped to
at least 1). -/
def parseFullmoveField : Option (List Char) → Option Nat
  | none => some 1
  | some cs => do
    let v ← pyIntChars cs
    if v < 0 then none else some (max v.toNat 1)

/-- Parse a FEN string (python-chess `Board(fen)` / `set_fen`): one to six
whitespace-separated fields with the standard defaults for missing ones;
more than six fields, or any malformed field, is an error. -/
def parseFen (s : String) : Option Board := do
  let fields := splitWs s.data
  if fields.length = 0 ∨ 6 < fields.length then none
  else do
    let cells ← parseBoardChars (fields.getD 0 [])
    let turn ← parseTurnField (fields.get? 1)
    let c4 ← parseCastleField (fields.get? 2)
    let ep ← parseEpField (fields.get? 3)
    let halfmove ← parseHalfmoveField (fields.get? 4)
    let fullmove ← parseFullmoveField (fields.get? 5)
    pure { cells := cells, turn := turn, castleWK := c4.1, castleWQ := c4.2.1,
           castleBK := c4.2.2.1, castleBQ := c4.2.2.2, ep := ep,
           halfmove := halfmove, fullmove := fullmove }

/-- The standard starting position FEN (python-chess `STARTING_FEN`). -/
def STARTING_FEN : String :=
  "rnbqkbnr/pppppppp/8/8/8/8/PPPPPPPP/RNBQKBNR w KQkq - 0 1"

/-- Back rank of colour `c`. -/
def backRank (c : Color) : List (Option Piece) :=
  [some ⟨c, .rook⟩, some ⟨c, .knight⟩, some ⟨c, .bishop⟩, some ⟨c, .queen⟩,
   some ⟨c, .king⟩, some ⟨c, .bishop⟩, some ⟨c, .knight⟩, some ⟨c, .rook⟩]

/-- The standard starting position (python-chess `Board()`). -/
def startBoard : Board :=
  { cells := backRank .white ++ List.replicate 8 (some ⟨.white, .pawn⟩) ++
      List.replicate 32 none ++ List.replicate 8 (some ⟨.black, .pawn⟩) ++
      backRank .black
    turn := .white
    castleWK := true, castleWQ := true, castleBK := true, castleBQ := true
    ep := none, halfmove := 0, fullmove := 1 }

/-- From-squares of other legal moves of the same piece type to the same
target (python-chess disambiguation candidates in `Board._algebraic`). -/
def sanOthers (b : Board) (m : Move) (pt : PieceType) : List Nat :=
  b.legalMoves.filterMap fun m2 =>
    if b.pieceAt m2.fromSq = some ⟨b.turn, pt⟩ && m2.fromSq ≠ m.fromSq &&
        m2.toSq = m.toSq then some m2.fromSq else none

/-- SAN disambiguation: file, then rank, then both, exactly as python-chess
decides it from the ambiguous candidates. -/
def sanDisambig (b : Board) (m : Move) (pt : PieceType) : List Char :=
  let others := sanOthers b m pt
  if others = [] then []
  else
    let sameRank := others.any fun s2 => s2 / 8 = m.fromSq / 8
    let sameFile := others.any fun s2 => s2 % 8 = m.fromSq % 8
    let column := sameRank || !sameFile
    let row := sameFile
    (if column then [fileChar (m.fromSq % 8)] else []) ++
      (if row then [rankChar (m.fromSq / 8)] else [])

/-- SAN of a move without the check/mate suffix (python-chess
`Board._algebraic_without_suffix`). -/
def sanBodyChars (b : Board) (m : Move) : List Char :=
  if m = Move.null then ['-', '-']
  else if b.isCastling m then
    (if (m.toSq % 8) < (m.fromSq % 8) then "O-O-O" else "O-O").data
  else
    let pt := ((b.pieceAt m.fromSq).map (·.ptype)).getD .pawn
    let capture := b.isCapture m
    let base :=
      if pt = .pawn then (if capture then [fileChar (m.fromSq % 8)] else [])
      else pieceChar ⟨.white, pt⟩ :: sanDisambig b m pt
    base ++ (if capture then ['x'] else []) ++ squareNameChars m.toSq ++
      (match m.promo with
       | some pr => ['=', pieceChar ⟨.white, pr⟩]
       | none => [])

/-- SAN of a move, with '+' / '#' suffix from the resulting position
(python-chess `Board.san`). -/
def Board.sanChars (b : Board) (m : Move) : List Char :=
  let body := sanBodyChars b m
  if m = Move.null then body
  else
    let b' := b.push m
    if b'.isCheck then
      if b'.isCheckmate then body ++ ['#'] else body ++ ['+']
    else body

/-- SAN of a move as a string. -/
def Board.san (b : Board) (m : Move) : String := String.mk (b.sanChars m)

/-- UCI text of a move (python-chess `Move.uci`). -/
def Move.uci (m : Move) : String :=
  match m.promo with
  | some pr =>
    String.mk (squareNameChars m.fromSq ++ squareNameChars m.toSq ++ [pieceSymbol pr])
  | none =>
    if m = Move.null then "0000"
    else String.mk (squareNameChars m.fromSq ++ squareNameChars m.toSq)

/-- Parse a UCI move (python-chess `Move.from_uci`): "0000" is the null
move; otherwise four or five characters, a lower-case promotion symbol, and
equal origin and target squares are rejected. -/
def Move.fromUci (s : String) : Option Move :=
  if s = "0000" then some Move.null
  else
    match s.data with
    | [a, b, c, d] => do
      let s1 ← parseSquareChars a b
      let s2 ← parseSquareChars c d
      if s1 = s2 then none else some ⟨s1, s2, none⟩
    | [a, b, c, d, e] => do
      let s1 ← parseSquareChars a b
      let s2 ← parseSquareChars c d
      let pr ← symbolVal e
      if s1 = s2 then none else some ⟨s1, s2, some pr⟩
    | _ => none

/-- Promotion letter accepted by the SAN pattern (both cases, python-chess
`SAN_REGEX` group `(=?[nbrqkNBRQK])?`). -/
def promoFromChar : Char → Option PieceType
  | 'n' => some .knight | 'N' => some .knight
  | 'b' => some .bishop | 'B' => some .bishop
  | 'r' => some .rook | 'R' => some .rook
  | 'q' => some .queen | 'Q' => some .queen
  | 'k' => some .king | 'K' => some .king
  | _ => none

/-- Leading piece letter of a SAN token (`[NBKRQ]?`). -/
def sanPieceFromChar : Char → Option PieceType
  | 'N' => some .knight | 'B' => some .bishop | 'K' => some .king
  | 'R' => some .rook | 'Q' => some .queen
  | _ => none

/-- Structure of a SAN token as matched by python-chess `SAN_REGEX`:
`[NBKRQ]?[a-h]?[1-8]?[-x]?([a-h][1-8])(=?[nbrqkNBRQK])?[+#]?`. -/
structure SanPattern where
  piece : Option PieceType
  fromFile : Option Nat
  fromRank : Option Nat
  target : Nat
  promo : Option PieceType
deriving DecidableEq, Repr

/-- Match a SAN token against the python-chess SAN pattern. -/
def parseSanPattern (cs : List Char) : Option SanPattern :=
  let cs1 :=
    match cs.reverse with
    | c :: rest => if c = '+' || c = '#' then rest.reverse else cs
    | [] => cs
  let stripPromo : List Char → Option PieceType × List Char := fun l =>
    match l.reverse with
    | c :: rest =>
      match promoFromChar c with
      | some pr =>
        match rest with
        | '=' :: rest2 => (some pr, rest2.reverse)
        | _ => (some pr, rest.reverse)
      | none => (none, l)
    | [] => (none, l)
  let (promo, cs2) := stripPromo cs1
  match cs2.reverse with
  | cr :: cf :: pre =>
    match parseSquareChars cf cr with
    | some t =>
      let pre := pre.reverse
      let (pc, p1) :=
        match pre with
        | c :: rest =>
          match sanPieceFromChar c with
          | some pt => (some pt, rest)
          | none => ((none : Option PieceType), pre)
        | [] => (none, pre)
      let (ff, p2) :=
        match p1 with
        | c :: rest =>
          match fileVal c with
          | some f => (some f, rest)
          | none => ((none : Option Nat), p1)
        | [] => (none, p1)
      let (fr, p3) :=
        match p2 with
        | c :: rest =>
          match rankVal c with
          | some r => (some r, rest)
          | none => ((none : Option Nat), p2)
        | [] => (none, p2)
      let p4 :=
        match p3 with
        | c :: rest => if c = '-' || c = 'x' then rest else p3
        | [] => p3
      if p4 = [] then some ⟨pc, ff, fr, t, promo⟩ else none
    | none => none
  | _ => none

/-- Castling tokens accepted by python-chess `parse_san`. -/
def kingsideSanTokens : List String := ["O-O", "O-O+", "O-O#", "0-0", "0-0+", "0-0#"]

/-- Queenside castling tokens accepted by python-chess `parse_san`. -/
def queensideSanTokens : List String :=
  ["O-O-O", "O-O-O+", "O-O-O#", "0-0-0", "0-0-0+", "0-0-0#"]

/-- Null-move tokens accepted by python-chess `parse_san`. -/
def nullSanTokens : List String := ["--", "Z0", "0000", "@@@@"]

/-- Parse a SAN token against a position (python-chess `Board.parse_san`):
castling and null tokens are special-cased; otherwise the token's
constraints (piece type, origin hints, target not occupied by an own piece,
exact promotion) select among the legal moves — no match is an illegal-move
error, several matches an ambiguous-move error. -/
def Board.parseSan (b : Board) (s : String) : Except String Move :=
  if s ∈ kingsideSanTokens then
    match b.legalMoves.filter (fun m => b.isCastling m && m.fromSq % 8 < m.toSq % 8) with
    | m :: _ => .ok m
    | [] => .error ("illegal san: " ++ s)
  else if s ∈ queensideSanTokens then
    match b.legalMoves.filter (fun m => b.isCastling m && m.toSq % 8 < m.fromSq % 8) with
    | m :: _ => .ok m
    | [] => .error ("illegal san: " ++ s)
  else if s ∈ nullSanTokens then .ok Move.null
  else
    match parseSanPattern s.data with
    | none => .error ("invalid san: " ++ s)
    | some pat =>
      let pt := pat.piece.getD .pawn
      let candidates := b.legalMoves.filter fun m =>
        b.pieceAt m.fromSq = some ⟨b.turn, pt⟩ &&
        (pat.fromFile.all fun f => m.fromSq % 8 = f) &&
        (pat.fromRank.all fun r => m.fromSq / 8 = r) &&
        m.toSq = pat.target &&
        !((b.pieceAt pat.target).any fun p => p.color = b.turn) &&
        m.promo = pat.promo
      match candidates with
      | [] => .error ("illegal san: " ++ s)
      | [m] => .ok m
      | _ => .error ("ambiguous san: " ++ s)

/-! ## PGN reading (python-chess `chess.pgn`)

`chess.pgn.read_game` tokenizes a game block into bracketed tag pairs and a
stream of movetext tokens (move numbers, NAGs and comments are dropped by
its movetext regex).  A `GameBlock` is one such tokenized block.  The reader
is forgiving: an unparseable or illegal SAN token is recorded on the game's
own error list and the remainder of that game's movetext is skipped — no
exception reaches the caller of `read_game`. -/

/-- Result tokens that terminate a game's movetext. -/
def resultTokens : List String := ["1-0", "0-1", "1/2-1/2", "*"]

/-- The seven tag roster defaults of python-chess `Headers()` (present on
every `Game`, including freshly constructed ones). -/
def defaultHeaders : List (String × String) :=
  [("Event", "?"), ("Site", "?"), ("Date", "????.??.??"), ("Round", "?"),
   ("White", "?"), ("Black", "?"), ("Result", "*")]

/-- Set a header: update an existing key in place, else append. -/
def setHeader (hs : List (String × String)) (k v : String) :
    List (String × String) :=
  if hs.any (fun p => p.1 = k) then
    hs.map fun p => if p.1 = k then (k, v) else p
  else hs ++ [(k, v)]

/-- Headers of a read game: parsed tag pairs over the roster defaults. -/
def mergeHeaders (tags : List (String × String)) : List (String × String) :=
  tags.foldl (fun hs kv => setHeader hs kv.1 kv.2) defaultHeaders

/-- Look a header up. -/
def lookupHeader (hs : List (String × String)) (k : String) : Option String :=
  (hs.find? fun p => p.1 = k).map (·.2)

/-- One tokenized game block of a PGN input. -/
structure GameBlock where
  tags : List (String × String)
  tokens : List String
deriving DecidableEq, Repr

/-- A read game: headers (roster defaults merged with the tags), the
reader's collected errors (`Game.errors`), and the mainline moves. -/
structure Game where
  headers : List (String × String)
  errors : List String
  mainline : List Move
deriving DecidableEq, Repr

/-- Starting board of a game: the `FEN` header if present, else the standard
position (python-chess `Headers.board`, raising on an invalid FEN). -/
def headerBoard (hs : List (String × String)) : Except String Board :=
  match lookupHeader hs "FEN" with
  | none => .ok startBoard
  | some f =>
    match parseFen f with
    | some b => .ok b
    | none => .error ("invalid fen: " ++ f)

/-- Starting board of a read game (python-chess `Game.board`). -/
def Game.board (g : Game) : Except String Board := headerBoard g.headers

/-- The reader's movetext walk: a result token ends the game; a SAN token is
parsed and applied; on a SAN error the error is collected and the rest of
the game's movetext is skipped. -/
def walkTokens (b : Board) : List String → List Move × List String
  | [] => ([], [])
  | t :: ts =>
    if t ∈ resultTokens then ([], [])
    else
      match b.parseSan t with
      | .error e => ([], [e])
      | .ok m =>
        let rest := walkTokens (b.push m) ts
        (m :: rest.1, rest.2)

/-- Read one game block (python-chess `chess.pgn.read_game` on one block):
never fails; reader errors end up in `Game.errors`. -/
def readGame (blk : GameBlock) : Game :=
  let hs := mergeHeaders blk.tags
  match headerBoard hs with
  | .error e => ⟨hs, [e], []⟩
  | .ok b0 =>
    let (ms, es) := walkTokens b0 blk.tokens
    ⟨hs, es, ms⟩

/-! ## PGN service (`app/services/pgn.py`) -/

/-- Metadata extracted from PGN headers (`GameMetadata` dataclass). -/
structure GameMetadata where
  event : Option String := none
  site : Option String := none
  date : Option String := none
  round : Option String := none
  white : Option String := none
  black : Option String := none
  result : Option String := none
  white_elo : Option Int := none
  black_elo : Option Int := none
  eco : Option String := none
  opening : Option String := none
  time_control : Option String := none
  termination : Option String := none
deriving DecidableEq, Repr

/-- A parsed chess game from PGN (`ParsedGame` dataclass). -/
structure ParsedGame where
  metadata : GameMetadata
  moves : List String
  moves_san : List String
  pgn_text : String
  fen_start : String
  fen_final : String
  move_count : Nat
deriving DecidableEq, Repr

/-- Result of a PGN import operation (`PGNImportResult` dataclass). -/
structure PGNImportResult where
  success : Bool
  games_parsed : Nat
  games_imported : Nat
  errors : List String
  games : List ParsedGame
deriving DecidableEq, Repr

/-- `PGNService._parse_elo`: `None` for missing, empty or "?" ratings, else
python `int` with failures mapped to `None`. -/
def parseElo : Option String → Option Int
  | none => none
  | some s => if s = "" || s = "?" then none else pyInt s

/-- Metadata fields read off the headers in `_parse_single_game`. -/
def extractMetadata (hs : List (String × String)) : GameMetadata :=
  { event := lookupHeader hs "Event"
    site := lookupHeader hs "Site"
    date := lookupHeader hs "Date"
    round := lookupHeader hs "Round"
    white := lookupHeader hs "White"
    black := lookupHeader hs "Black"
    result := lookupHeader hs "Result"
    white_elo := parseElo (lookupHeader hs "WhiteElo")
    black_elo := parseElo (lookupHeader hs "BlackElo")
    eco := lookupHeader hs "ECO"
    opening := lookupHeader hs "Opening"
    time_control := lookupHeader hs "TimeControl"
    termination := lookupHeader hs "Termination" }

/-- The SAN/UCI accumulation loop of `_parse_single_game`: for each mainline
move record its SAN (before it is applied) and its UCI, then push it. -/
def sanWalk (b : Board) : List Move → List String × List String × Board
  | [] => ([], [], b)
  | m :: ms =>
    let s := b.san m
    let rest := sanWalk (b.push m) ms
    (s :: rest.1, m.uci :: rest.2.1, rest.2.2)

/-- Result header value used as the movetext's terminal token
(`headers.get("Result", "*")`). -/
def resultOf (hs : List (String × String)) : String :=
  (lookupHeader hs "Result").getD "*"

/-- Movetext tokens with python-chess `StringExporter` move numbering:
a number before each White move, and `N...` before a leading Black move. -/
def numberTokens : Color → Nat → Bool → List String → List String
  | _, _, _, [] => []
  | .white, n, _, s :: ss =>
    (String.mk (natStr n) ++ ".") :: s :: numberTokens .black n false ss
  | .black, n, force, s :: ss =>
    (if force then [String.mk (natStr n) ++ "..."] else []) ++
      s :: numberTokens .white (n + 1) false ss

/-- One rendered header line. -/
def renderHeaderLine (kv : String × String) : String :=
  "[" ++ kv.1 ++ " \"" ++ kv.2 ++ "\"]"

/-- Rendered PGN text of python-chess
`StringExporter(headers=True, variations=False, comments=False)`: header
lines, a blank line, then the numbered single mainline and the result token
(the exporter's 80-column line wrapping is not modelled; it only moves
whitespace). -/
def renderPgn (hs : List (String × String)) (b0 : Board) (sans : List String)
    (res : String) : String :=
  String.intercalate "\n" (hs.map renderHeaderLine) ++ "\n\n" ++
    String.intercalate " " (numberTokens b0.turn b0.fullmove true sans ++ [res]) ++
    "\n"

/-- `PGNService._parse_single_game`: extract metadata, derive the start FEN,
accumulate SAN and UCI forms in lockstep while replaying the mainline,
record the final FEN and re-render the canonical PGN text.  Fails only when
the game's start board cannot be built (invalid `FEN` header). -/
def parseSingleGame (g : Game) : Except String ParsedGame :=
  match g.board with
  | .error e => .error e
  | .ok b0 =>
    let md := extractMetadata g.headers
    let fenStart := b0.fen
    let walked := sanWalk b0 g.mainline
    let sans := walked.1
    let ucis := walked.2.1
    let fenFinal := walked.2.2.fen
    .ok { metadata := md, moves := ucis, moves_san := sans
          pgn_text := renderPgn g.headers b0 sans (resultOf g.headers)
          fen_start := fenStart, fen_final := fenFinal
          move_count := ucis.length }

/-- The read/parse loop of `PGNService.parse_pgn`, with 1-based game
ordinals for error messages. -/
def parseLoop : Nat → List GameBlock → List ParsedGame × List String
  | _, [] => ([], [])
  | i, blk :: rest =>
    let out := parseLoop (i + 1) rest
    match parseSingleGame (readGame blk) with
    | .ok g => (g :: out.1, out.2)
    | .error e => (out.1, ("Game " ++ String.mk (natStr i) ++ ": " ++ e) :: out.2)

/-- `PGNService.parse_pgn`: read up to `maxGames` blocks, collect parsed
games and per-game error messages; `success` iff at least one game parsed,
`games_imported` always 0 here (set only after a database save).  The outer
catch-all of the source is unreachable in this model: every modelled
operation is total. -/
def parse_pgn (blocks : List GameBlock) (maxGames : Nat := 100) :
    PGNImportResult :=
  let out := parseLoop 1 (blocks.take maxGames)
  { success := !out.1.isEmpty
    games_parsed := out.1.length
    games_imported := 0
    errors := out.2
    games := out.1 }

/-- The replay loop of `PGNService.validate_pgn`. -/
def validateLoop (b : Board) : List Move → Bool × Option String
  | [] => (true, none)
  | m :: ms =>
    if m ∈ b.legalMoves then validateLoop (b.push m) ms
    else (false, some ("Illegal move: " ++ m.uci))

/-- `PGNService.validate_pgn`: no readable game is an error; then the first
game's mainline is replayed, failing on the first move that is not legal in
its position; exceptions while building the board (invalid `FEN` header)
are caught and returned as the error message. -/
def validate_pgn (blocks : List GameBlock) : Bool × Option String :=
  match blocks.head? with
  | none => (false, some "No valid game found in PGN")
  | some blk =>
    let g := readGame blk
    match g.board with
    | .error e => (false, some e)
    | .ok b0 => validateLoop b0 g.mainline

/-- Structured output of `PGNService.export_to_pgn`: the headers, the SAN
mainline, the result token and the warnings logged for skipped moves. -/
structure ExportedPgn where
  headers : List (String × String)
  sans : List String
  result : String
  warnings : List String
deriving DecidableEq, Repr

/-- Movetext tokens of an export: the single mainline then the result. -/
def ExportedPgn.movetext (e : ExportedPgn) : List String := e.sans ++ [e.result]

/-- The move loop of `export_to_pgn`: malformed UCI and moves not legal at
their point in the sequence are skipped with a warning; legal moves are
added to the mainline and applied. -/
def exportLoop (b : Board) : List String → List String × List String
  | [] => ([], [])
  | mv :: rest =>
    match Move.fromUci mv with
    | none =>
      let out := exportLoop b rest
      (out.1, ("Invalid move format: " ++ mv) :: out.2)
    | some m =>
      if m ∈ b.legalMoves then
        let out := exportLoop (b.push m) rest
        (b.san m :: out.1, out.2)
      else
        let out := exportLoop b rest
        (out.1, ("Skipping illegal move: " ++ mv) :: out.2)

/-- Start board of an export: `chess.Board(fen_start)` when a FEN is given
(raising on an invalid one), else the standard position. -/
def exportStartBoard : Option String → Except String Board
  | none => .ok startBoard
  | some f =>
    match parseFen f with
    | some b => .ok b
    | none => .error ("invalid fen: " ++ f)

/-- The metadata loop of `export_to_pgn`: `game.headers[key] = str(value)`
for each entry whose value is not `None`, over the `Game()` roster
defaults. -/
def applyMetadata (md : List (String × Option String)) :
    List (String × String) :=
  md.foldl
    (fun hs kv =>
      match kv.2 with
      | some v => setHeader hs kv.1 v
      | none => hs)
    defaultHeaders

/-- Headers after the metadata loop of `export_to_pgn`: the `Game()` roster
defaults when no metadata is given, else the metadata entries with a value
set over them. -/
def baseHeaders (metadata : Option (List (String × Option String))) :
    List (String × String) :=
  match metadata with
  | none => defaultHeaders
  | some md => applyMetadata md

/-- The headers assembled by `export_to_pgn`: the metadata headers, plus
the `SetUp`/`FEN` pair that `game.setup` adds for a non-standard start
FEN. -/
def exportHeaders (metadata : Option (List (String × Option String)))
    (fen_start : Option String) : List (String × String) :=
  match fen_start with
  | some f =>
    if f = STARTING_FEN then baseHeaders metadata
    else setHeader (setHeader (baseHeaders metadata) "SetUp" "1") "FEN" f
  | none => baseHeaders metadata

/-- `PGNService.export_to_pgn`: headers start as the `Game()` roster
defaults, metadata entries with a value are set over them, `game.setup`
adds `SetUp`/`FEN` headers for a non-standard start FEN, and the move loop
builds the single mainline, skipping invalid moves with warnings. -/
def export_to_pgn (moves : List String)
    (metadata : Option (List (String × Option String)))
    (fen_start : Option String) : Except String ExportedPgn :=
  let hs2 := exportHeaders metadata fen_start
  match exportStartBoard fen_start with
  | .error e => .error e
  | .ok b0 =>
    let out := exportLoop b0 moves
    .ok { headers := hs2, sans := out.1, result := resultOf hs2,
          warnings := out.2 }

/-! ## Date normalization (`app/schemas/mutations.py:_parse_date`) -/

/-- A Python `datetime.datetime` date (time components are always zero in
`_parse_date`). -/
structure PyDate where
  year : Int
  month : Int
  day : Int
deriving DecidableEq, Repr

/-- Gregorian leap year (Python `calendar` rule used by `datetime`). -/
def isLeap (y : Int) : Bool := y % 4 = 0 && (y % 100 ≠ 0 || y % 400 = 0)

/-- Days in a month. -/
def daysInMonth (y m : Int) : Int :=
  if m = 2 then (if isLeap y then 29 else 28)
  else if m = 4 ∨ m = 6 ∨ m = 9 ∨ m = 11 then 30
  else 31

/-- Validity of `datetime(year, month, day)` (raises `ValueError`
otherwise). -/
def datetimeOk (y m d : Int) : Bool :=
  1 ≤ y && y ≤ 9999 && 1 ≤ m && m ≤ 12 && 1 ≤ d && d ≤ daysInMonth y m

/-- Python `date_str.replace("?", "01")`: each '?' character becomes the two
characters "01". -/
def replaceQ : List Char → List Char
  | [] => []
  | c :: cs => if c = '?' then '0' :: '1' :: replaceQ cs else c :: replaceQ cs

/-- `_parse_date`: `None` for missing/empty input and for the full
placeholder `????.??.??`; otherwise replace each '?' by "01", split on '.',
and build a `datetime` from three integer parts, with every parse or
`datetime` failure caught and mapped to `None`. -/
def parse_date (dateStr : Option String) : Option PyDate :=
  match dateStr with
  | none => none
  | some s =>
    if s = "" || s = "????.??.??" then none
    else
      let parts := splitOnChar '.' (replaceQ s.data)
      if parts.length = 3 then
        match pyIntChars (parts.getD 0 []), pyIntChars (parts.getD 1 []),
            pyIntChars (parts.getD 2 []) with
        | some y, some m, some d =>
          if datetimeOk y m d then some ⟨y, m, d⟩ else none
        | _, _, _ => none
      else none

/-! ## Engine service (`app/services/engine.py`) -/

/-- python-chess `Score`: centipawns or distance to mate. -/
inductive Score where
  | cp (v : Int)
  | mate (n : Int)
deriving DecidableEq, Repr

/-- Score from the opposite point of view. -/
def Score.neg : Score → Score
  | .cp v => .cp (-v)
  | .mate n => .mate (-n)

/-- Is this a mate score? -/
def Score.isMate : Score → Bool
  | .mate _ => true
  | .cp _ => false

/-- python-chess `Score.mate()`: the mate distance, `None` for centipawn
scores. -/
def Score.mateVal : Score → Option Int
  | .mate n => some n
  | .cp _ => none

/-- python-chess `Score.score()`: the centipawn value, `None` for mate
scores. -/
def Score.cpVal : Score → Option Int
  | .cp v => some v
  | .mate _ => none

/-- The numeric payload of a score. -/
def Score.valueOf : Score → Int
  | .cp v => v
  | .mate n => n

/-- python-chess `PovScore`: a score stored relative to the side to move of
the analyzed position (`turn`). -/
structure PovScore where
  relative : Score
  turn : Color
deriving DecidableEq, Repr

/-- python-chess `PovScore.pov`: the score from the given colour's
perspective. -/
def PovScore.pov (s : PovScore) (c : Color) : Score :=
  if s.turn = c then s.relative else s.relative.neg

/-- python-chess `PovScore.white()`: the absolute White-perspective score. -/
def PovScore.whitePov (s : PovScore) : Score := s.pov .white

/-- One engine `info` record as used by `_parse_analysis_info`
(python-chess `InfoDict`; absent keys are `none`). -/
structure InfoDict where
  score : Option PovScore
  pv : Option (List Move)
  depth : Option Nat
  nps : Option Nat
deriving DecidableEq, Repr

/-- `EngineScore` dataclass: a string tag ("cp" or "mate") and the value. -/
structure EngineScore where
  type : String
  value : Int
deriving DecidableEq, Repr

/-- `BestMove` dataclass. -/
structure BestMove where
  move : String
  san : String
  score : EngineScore
  depth : Nat
  pv : List String
  multipv : Nat
  nps : Nat
deriving DecidableEq, Repr

/-- `AnalysisResult` dataclass. -/
structure AnalysisResult where
  fen : String
  best_moves : List BestMove
  depth : Nat
deriving DecidableEq, Repr

/-- `board.san(pv[0])` under the catch-all of `_parse_analysis_info`:
modelled as failing exactly when the move is neither legal nor null (the
library raises on moves it cannot render against the board). -/
def sanOrNone (b : Board) (m : Move) : Option String :=
  if m = Move.null ∨ m ∈ b.legalMoves then some (b.san m) else none

/-- `EngineService._parse_analysis_info`: `None` without a score, `None`
without a principal variation, `None` when SAN conversion fails; otherwise
a `BestMove` whose score is "mate"/`relative.mate() or 0` for mate scores
and "cp"/`relative.score() or 0` otherwise — always the `relative`
(side-to-move) point of view. -/
def parseAnalysisInfo (info : InfoDict) (board : Board) (multipv : Nat) :
    Option BestMove :=
  match info.score with
  | none => none
  | some score =>
    match info.pv.getD [] with
    | [] => none
    | best :: restPv =>
      match sanOrNone board best with
      | none => none
      | some san =>
        let engineScore :=
          if score.relative.isMate then
            EngineScore.mk "mate" (score.relative.mateVal.getD 0)
          else EngineScore.mk "cp" (score.relative.cpVal.getD 0)
        some { move := best.uci, san := san, score := engineScore
               depth := info.depth.getD 0
               pv := (best :: restPv).map Move.uci
               multipv := multipv, nps := info.nps.getD 0 }

/-- The result-decoding loop of `analyze_position` (lines 135–148): one
`BestMove` at most per principal-variation slot, ranks assigned by
`enumerate(info, start=1)`, slots whose record decodes to `None` dropped. -/
def decodeInfos (infos : List InfoDict) (board : Board) : List BestMove :=
  infos.enum.filterMap fun p => parseAnalysisInfo p.2 board (p.1 + 1)

/-- Errors surfaced by `analyze_position`: `RuntimeError` when the engine
is not started (the spec's `EngineNotReady`), `ValueError` on an invalid
FEN (the spec's `MalformedRecord`). -/
inductive EngineError where
  | engineNotReady (msg : String)
  | invalidFen (msg : String)
deriving DecidableEq, Repr

/-- `EngineService` state: the configured engine path and the engine
process handle (`None` until `start()`). -/
structure EngineState where
  engine_path : String
  engine : Option Unit
deriving DecidableEq, Repr

/-- UCI protocol commands issued for one analysis (spec §4.4/§6 framing of
`engine.analyse`: a position-setting command, then a search command). -/
inductive UciCmd where
  | position (fen : String)
  | go (depth multipv : Nat)
deriving DecidableEq, Repr

/-- `EngineService.analyze_position`: fails before issuing any protocol
command when the engine is not started or the FEN does not parse, leaving
the state unchanged; otherwise issues the position and search commands and
decodes the engine's reply (`engineInfos`, an environment input standing
for the external process's output). -/
def analyze_position (s : EngineState) (fen : String) (depth multipv : Nat)
    (engineInfos : List InfoDict) :
    Except EngineError AnalysisResult × EngineState × List UciCmd :=
  match s.engine with
  | none =>
    (.error (.engineNotReady "Engine not started. Call start() first."), s, [])
  | some _ =>
    match parseFen fen with
    | none => (.error (.invalidFen ("Invalid FEN: " ++ fen)), s, [])
    | some board =>
      (.ok { fen := fen, best_moves := decodeInfos engineInfos board,
             depth := depth },
       s, [UciCmd.position fen, UciCmd.go depth multipv])

/-! ## Session event traces (for the concurrency claim)

Each coroutine of `EngineService` is modelled as its sequence of atomic
events; `start`/`stop` bracket their bodies with the `asyncio.Lock`
acquire/release (`async with self._lock`), while `analyze_position`'s body
contains no lock operation at all — it goes straight to the protocol
commands.  Concurrency is modelled as the interleavings of two event
sequences that respect the lock discipline. -/

/-- Atomic events of the engine session (tagged with the request id). -/
inductive SessEvt where
  | acquire (w : Nat)
  | release (w : Nat)
  | spawn (w : Nat)
  | quit (w : Nat)
  | uciPosition (w : Nat)
  | uciGo (w : Nat)
  | uciRead (w : Nat)
deriving DecidableEq, Repr

/-- Event trace of `analyze_position` for request `w` (FEN valid, engine
started): protocol commands only, no lock events — the source acquires no
lock there. -/
def analyzeEvents (w : Nat) : List SessEvt :=
  [.uciPosition w, .uciGo w, .uciRead w]

/-- Event trace of `start` (lock-bracketed process spawn). -/
def startEvents (w : Nat) : List SessEvt := [.acquire w, .spawn w, .release w]

/-- Event trace of `stop` (lock-bracketed quit). -/
def stopEvents (w : Nat) : List SessEvt := [.acquire w, .quit w, .release w]

/-- Lock events. -/
def isLockEvt : SessEvt → Bool
  | .acquire _ => true
  | .release _ => true
  | _ => false

/-- Protocol commands sent to the engine process. -/
def isCmdEvt : SessEvt → Bool
  | .uciPosition _ => true
  | .uciGo _ => true
  | _ => false

/-- Owner of an event. -/
def evtOwner : SessEvt → Nat
  | .acquire w | .release w | .spawn w | .quit w | .uciPosition w | .uciGo w
  | .uciRead w => w

/-- Is `l` an interleaving (merge) of `as` and `bs`? -/
def isMerge : List SessEvt → List SessEvt → List SessEvt → Bool
  | as, bs, [] => as = [] && bs = []
  | as, bs, c :: cs =>
    (match as with
     | a :: as2 => a = c && isMerge as2 bs cs
     | [] => false) ||
    (match bs with
     | b :: bs2 => b = c && isMerge as bs2 cs
     | [] => false)

/-- Does a schedule respect the lock discipline (acquire only when free,
release only by the holder)? -/
def lockOk : Option Nat → List SessEvt → Bool
  | _, [] => true
  | holder, e :: es =>
    match e, holder with
    | .acquire w, none => lockOk (some w) es
    | .acquire _, some _ => false
    | .release w, some h => h = w && lockOk none es
    | .release _, none => false
    | _, h => lockOk h es

/-- Number of owner changes along a list. -/
def ownerChanges : List Nat → Nat
  | [] => 0
  | [_] => 0
  | a :: b :: rest => (if a = b then 0 else 1) + ownerChanges (b :: rest)

/-- A schedule keeps the two requests' protocol commands un-interleaved
when its command events form at most two contiguous owner blocks. -/
def serializedCmds (l : List SessEvt) : Bool :=
  ownerChanges ((l.filter isCmdEvt).map evtOwner) ≤ 1

/-! ## Specification-side notions -/

/-- Well-formedness of a board as maintained by the model: 64 cells, a
positive fullmove number, and an on-board en-passant square.  Established
by `parseFen` and the standard position and preserved by `push`. -/
def Board.WF (b : Board) : Prop :=
  b.cells.length = 64 ∧ 1 ≤ b.fullmove ∧ ∀ e ∈ b.ep, e < 64

/-- A board with its en-passant field restricted to the squares its own FEN
records (python-chess prints the en-passant square only when a legal
en-passant capture exists, so `parse_fen (to_fen b)` recovers exactly
this). -/
def epCanon (b : Board) : Board := { b with ep := b.legalEpSquare }

/-- Replaying a UCI move list: parse each move and apply it in order
(python-chess `Move.from_uci` followed by `Board.push`), the spec's notion
of replaying `moves_uci` from a starting position. -/
def replayUci (b : Board) : List String → Option Board
  | [] => some b
  | u :: us =>
    match Move.fromUci u with
    | some m => replayUci (b.push m) us
    | none => none

/-- Replay a UCI move list from a FEN and return the final FEN (the spec's
"applying the moves of `moves_uci` in order starting from the position
parsed from `fen_start`"). -/
def replayFen (fenStr : String) (ucis : List String) : Option String := do
  let b ← parseFen fenStr
  let b2 ← replayUci b ucis
  pure b2.fen

/-- Every move of the list is the null move or legal at its point in the
sequence (the shape of mainlines produced by the reader). -/
def mainlineOk (b : Board) : List Move → Prop
  | [] => True
  | m :: ms => (m = Move.null ∨ m ∈ b.legalMoves) ∧ mainlineOk (b.push m) ms

/-- Every move of the list is legal at its point in the sequence (the
success condition of `validate_pgn`'s replay). -/
def allLegalAlong (b : Board) : List Move → Prop
  | [] => True
  | m :: ms => m ∈ b.legalMoves ∧ allLegalAlong (b.push m) ms

/-- The subsequence of a UCI move list that `export_to_pgn` applies: parsed
moves that are legal at their point in the sequence, applied greedily in
order (the claim's "moves that were applied legally in sequence"). -/
def appliedMoves (b : Board) : List String → List Move
  | [] => []
  | u :: us =>
    match Move.fromUci u with
    | some m =>
      if m ∈ b.legalMoves then m :: appliedMoves (b.push m) us
      else appliedMoves b us
    | none => appliedMoves b us

/-- Does the metadata dictionary passed to `export_to_pgn` set key `k`? -/
def mdSets (metadata : Option (List (String × Option String))) (k : String) :
    Prop :=
  ∃ v, (k, some v) ∈ metadata.getD []

/-- Keys of the seven tag roster. -/
def rosterKeys : List String :=
  ["Event", "Site", "Date", "Round", "White", "Black", "Result"]

/-- Was a non-standard start FEN supplied (the condition under which
`export_to_pgn` calls `game.setup`)? -/
def nonStdFen : Option String → Prop
  | none => False
  | some f => f ≠ STARTING_FEN

/-! ## Concrete inputs used by witnesses and counterexamples -/

/-- A well-formed one-game block: `1. e4 e5 2. Nf3 *`. -/
def blockA : GameBlock := ⟨[], ["e4", "e5", "Nf3", "*"]⟩

/-- A one-move block: `1. e4 *`. -/
def blockE4 : GameBlock := ⟨[], ["e4", "*"]⟩

/-- A block whose movetext contains `Kxe2`, illegal from the start
position (the king cannot capture its own pawn on e2). -/
def blockKxe2 : GameBlock := ⟨[], ["Kxe2", "*"]⟩

/-- A block whose `FEN` header does not parse, so game extraction fails. -/
def blockBadFen : GameBlock := ⟨[("FEN", "not a fen")], ["e4", "*"]⟩

/-- Placeholder parsed game used to select computed games concretely. -/
def emptyParsedGame : ParsedGame := ⟨{}, [], [], "", "", "", 0⟩

/-- The game parsed from `blockE4`. -/
def gameE4 : ParsedGame := (parse_pgn [blockE4] 100).games.headD emptyParsedGame

/-- Engine info slot 1: a centipawn score and the PV `e2e4`. -/
def slotOne : InfoDict :=
  ⟨some ⟨.cp 30, .white⟩, some [⟨12, 28, none⟩], some 12, some 1000⟩

/-- Engine info slot 2: a score but no principal variation in the payload. -/
def slotTwo : InfoDict := ⟨some ⟨.cp 25, .white⟩, none, some 12, some 900⟩

/-- An engine info record without a score. -/
def noScoreSlot : InfoDict := ⟨none, some [⟨12, 28, none⟩], some 5, some 10⟩

/-- The candidate move decoded from `slotOne` at rank 1. -/
def slotOneBest : BestMove := ⟨"e2e4", "e4", ⟨"cp", 30⟩, 12, ["e2e4"], 1, 1000⟩

/-- An engine info record carrying a negative mate distance for the side to
move. -/
def mateInfo : InfoDict :=
  ⟨some ⟨.mate (-3), .black⟩, some [⟨12, 28, none⟩], some 20, some 5000⟩

/-- The candidate move decoded from `mateInfo` at rank 1. -/
def mateInfoBest : BestMove :=
  ⟨"e2e4", "e4", ⟨"mate", -3⟩, 20, ["e2e4"], 1, 5000⟩

/-- A lock-admissible schedule of two concurrent `analyze_position` calls
whose protocol commands interleave. -/
def interleavedSchedule : List SessEvt :=
  [.uciPosition 1, .uciPosition 2, .uciGo 1, .uciGo 2, .uciRead 1, .uciRead 2]

/-- The sequential schedule of two `analyze_position` calls. -/
def serialSchedule : List SessEvt := analyzeEvents 1 ++ analyzeEvents 2

/-- Does game extraction fail for this block (the only way `parse_pgn`
records an error message)? -/
def extractionFails (blk : GameBlock) : Bool :=
  match parseSingleGame (readGame blk) with
  | .ok _ => false
  | .error _ => true

/-! ## Lemmas -/

/-- Counting invariants of the `parse_pgn` read loop: every block yields
either a parsed game or an error message, and the error messages are
exactly the blocks whose extraction fails. -/
theorem parseLoop_counts : ∀ (bs : List GameBlock) (i : Nat),
    (parseLoop i bs).1.length + (parseLoop i bs).2.length = bs.length ∧
    (parseLoop i bs).2.length = (bs.filter extractionFails).length := by
  intro bs
  induction bs with
  | nil => intro i; exact ⟨rfl, rfl⟩
  | cons blk rest ih =>
    intro i
    obtain ⟨h1, h2⟩ := ih (i + 1)
    cases hp : parseSingleGame (readGame blk) with
    | ok g =>
      have hf : extractionFails blk = false := by simp [extractionFails, hp]
      constructor
      · simp only [parseLoop, hp, List.length_cons]
        omega
      · simp only [parseLoop, hp, List.filter_cons, hf, if_neg]
        simpa using h2
    | error e =>
      have hf : extractionFails blk = true := by simp [extractionFails, hp]
      constructor
      · simp only [parseLoop, hp, List.length_cons]
        omega
      · simp only [parseLoop, hp, List.filter_cons, hf, if_pos,
          List.length_cons]
        omega

/-- A merge of two lists satisfying a predicate satisfies it as well. -/
theorem isMerge_all {p : SessEvt → Bool} :
    ∀ (l as bs : List SessEvt), isMerge as bs l = true →
      as.all p = true → bs.all p = true → l.all p = true := by
  intro l
  induction l with
  | nil => intro as bs _ _ _; rfl
  | cons c cs ih =>
    intro as bs hm ha hb
    cases as with
    | nil =>
      cases bs with
      | nil => simp [isMerge] at hm
      | cons b bs2 =>
        simp only [isMerge, Bool.false_or, Bool.and_eq_true,
          decide_eq_true_eq] at hm
        obtain ⟨rfl, hm⟩ := hm
        simp only [List.all_cons, Bool.and_eq_true] at hb ⊢
        exact ⟨hb.1, ih [] bs2 hm ha hb.2⟩
    | cons a as2 =>
      cases bs with
      | nil =>
        simp only [isMerge, Bool.or_false, Bool.and_eq_true,
          decide_eq_true_eq] at hm
        obtain ⟨rfl, hm⟩ := hm
        simp only [List.all_cons, Bool.and_eq_true] at ha ⊢
        exact ⟨ha.1, ih as2 [] hm ha.2 hb⟩
      | cons b bs2 =>
        simp only [isMerge, Bool.or_eq_true, Bool.and_eq_true,
          decide_eq_true_eq] at hm
        rcases hm with ⟨rfl, hm⟩ | ⟨rfl, hm⟩
        · simp only [List.all_cons, Bool.and_eq_true] at ha ⊢
          exact ⟨ha.1, ih as2 (b :: bs2) hm ha.2 hb⟩
        · simp only [List.all_cons, Bool.and_eq_true] at hb ⊢
          exact ⟨hb.1, ih (a :: as2) bs2 hm ha hb.2⟩

/-- A schedule without lock events satisfies the lock discipline from any
starting state. -/
theorem lockOk_of_no_lock_events :
    ∀ (l : List SessEvt) (h : Option Nat),
      l.all (fun e => !isLockEvt e) = true → lockOk h l = true := by
  intro l
  induction l with
  | nil => intro h _; rfl
  | cons e es ih =>
    intro h hall
    simp only [List.all_cons, Bool.and_eq_true] at hall
    cases e with
    | acquire w => simp [isLockEvt] at hall
    | release w => simp [isLockEvt] at hall
    | spawn w => exact ih h hall.2
    | quit w => exact ih h hall.2
    | uciPosition w => exact ih h hall.2
    | uciGo w => exact ih h hall.2
    | uciRead w => exact ih h hall.2

/-- The `validate_pgn` replay loop returns `(true, none)` exactly when every
mainline move is legal in its successive position. -/
theorem validateLoop_true_iff : ∀ (ms : List Move) (b : Board),
    validateLoop b ms = (true, none) ↔ allLegalAlong b ms := by
  intro ms
  induction ms with
  | nil => intro b; simp [validateLoop, allLegalAlong]
  | cons m rest ih =>
    intro b
    by_cases hm : m ∈ b.legalMoves
    · simp only [validateLoop, if_pos hm, allLegalAlong]
      rw [ih]
      exact ⟨fun h => ⟨hm, h⟩, fun h => h.2⟩
    · simp only [validateLoop, if_neg hm, allLegalAlong]
      constructor
      · intro h; exact absurd h (by simp)
      · intro h; exact absurd h.1 hm

/-- The `validate_pgn` replay loop returns `(true, none)` or `(false, msg)`
with a message. -/
theorem validateLoop_shape : ∀ (ms : List Move) (b : Board),
    validateLoop b ms = (true, none) ∨
      ∃ msg, validateLoop b ms = (false, some msg) := by
  intro ms
  induction ms with
  | nil => intro b; exact .inl rfl
  | cons m rest ih =>
    intro b
    by_cases hm : m ∈ b.legalMoves
    · simpa only [validateLoop, if_pos hm] using ih (b.push m)
    · exact .inr ⟨"Illegal move: " ++ m.uci, by simp only [validateLoop, if_neg hm]⟩

/-- The export move loop emits exactly the SANs of the greedily-applied
legal subsequence and one warning per skipped move. -/
theorem exportLoop_spec : ∀ (mvs : List String) (b : Board),
    (exportLoop b mvs).1 = (sanWalk b (appliedMoves b mvs)).1 ∧
    (exportLoop b mvs).2.length + (appliedMoves b mvs).length = mvs.length := by
  intro mvs
  induction mvs with
  | nil => intro b; exact ⟨rfl, rfl⟩
  | cons mv rest ih =>
    intro b
    cases hu : Move.fromUci mv with
    | none =>
      obtain ⟨h1, h2⟩ := ih b
      constructor
      · simp only [exportLoop, hu, appliedMoves]
        exact h1
      · simp only [exportLoop, hu, appliedMoves, List.length_cons]
        omega
    | some m =>
      by_cases hm : m ∈ b.legalMoves
      · obtain ⟨h1, h2⟩ := ih (b.push m)
        constructor
        · simp only [exportLoop, hu, appliedMoves, if_pos hm, sanWalk]
          rw [h1]
        · simp only [exportLoop, hu, appliedMoves, if_pos hm,
            List.length_cons]
          omega
      · obtain ⟨h1, h2⟩ := ih b
        constructor
        · simp only [exportLoop, hu, appliedMoves, if_neg hm]
          exact h1
        · simp only [exportLoop, hu, appliedMoves, if_neg hm,
            List.length_cons]
          omega

/-- Membership in an updated header list comes from the original list or is
the updated key. -/
theorem mem_setHeader {hs : List (String × String)} {k1 w k v}
    (h : (k, v) ∈ setHeader hs k1 w) : (k, v) ∈ hs ∨ k = k1 := by
  unfold setHeader at h
  by_cases hp : hs.any (fun p => p.1 = k1)
  · rw [if_pos hp] at h
    obtain ⟨p, hpmem, hpe⟩ := List.mem_map.mp h
    by_cases hpk : p.1 = k1
    · rw [if_pos hpk] at hpe
      right
      cases hpe
      rfl
    · rw [if_neg hpk] at hpe
      left
      rw [← hpe]
      exact hpmem
  · rw [if_neg hp] at h
    rcases List.mem_append.mp h with h | h
    · exact .inl h
    · right
      simp only [List.mem_singleton] at h
      cases h
      rfl

/-- Setting a header preserves the presence of every key. -/
theorem keys_setHeader {hs : List (String × String)} {k1 w k}
    (h : ∃ v, (k, v) ∈ hs) : ∃ v, (k, v) ∈ setHeader hs k1 w := by
  obtain ⟨v, hv⟩ := h
  unfold setHeader
  by_cases hp : hs.any (fun p => p.1 = k1)
  · rw [if_pos hp]
    by_cases hk : k = k1
    · subst hk
      exact ⟨w, List.mem_map.mpr ⟨(k, v), hv, by simp⟩⟩
    · exact ⟨v, List.mem_map.mpr ⟨(k, v), hv, by simp [hk]⟩⟩
  · rw [if_neg hp]
    exact ⟨v, List.mem_append_left _ hv⟩

/-- Membership after the metadata fold comes from the defaults or from a
set metadata entry. -/
theorem mem_applyMetadata : ∀ (md : List (String × Option String)) k v,
    (k, v) ∈ applyMetadata md →
    (k, v) ∈ defaultHeaders ∨ ∃ w, (k, some w) ∈ md := by
  have main : ∀ (md : List (String × Option String))
      (hs : List (String × String)) k v,
      (k, v) ∈ md.foldl
        (fun hs kv =>
          match kv.2 with
          | some w => setHeader hs kv.1 w
          | none => hs) hs →
      (k, v) ∈ hs ∨ ∃ w, (k, some w) ∈ md := by
    intro md
    induction md with
    | nil => intro hs k v h; exact .inl h
    | cons kv rest ih =>
      intro hs k v h
      simp only [List.foldl_cons] at h
      cases hkv : kv.2 with
      | none =>
        rw [hkv] at h
        rcases ih hs k v h with h | ⟨w, hw⟩
        · exact .inl h
        · exact .inr ⟨w, List.mem_cons_of_mem _ hw⟩
      | some w0 =>
        rw [hkv] at h
        rcases ih (setHeader hs kv.1 w0) k v h with h | ⟨w, hw⟩
        · rcases mem_setHeader h with h | h
          · exact .inl h
          · refine .inr ⟨w0, ?_⟩
            have : kv = (k, some w0) := by
              rcases kv with ⟨a, b⟩
              simp only at hkv
              simp [hkv, h]
            rw [← this]
            exact List.mem_cons_self _ _
        · exact .inr ⟨w, List.mem_cons_of_mem _ hw⟩
  intro md k v h
  exact main md defaultHeaders k v h

/-- The metadata fold preserves the presence of every key. -/
theorem keys_applyMetadata : ∀ (md : List (String × Option String)) k,
    (∃ v, (k, v) ∈ defaultHeaders) → ∃ v, (k, v) ∈ applyMetadata md := by
  have main : ∀ (md : List (String × Option String))
      (hs : List (String × String)) k,
      (∃ v, (k, v) ∈ hs) →
      ∃ v, (k, v) ∈ md.foldl
        (fun hs kv =>
          match kv.2 with
          | some w => setHeader hs kv.1 w
          | none => hs) hs := by
    intro md
    induction md with
    | nil => intro hs k h; exact h
    | cons kv rest ih =>
      intro hs k h
      simp only [List.foldl_cons]
      cases hkv : kv.2 with
      | none => exact ih hs k h
      | some w0 => exact ih (setHeader hs kv.1 w0) k (keys_setHeader h)
  intro md k h
  exact main md defaultHeaders k h

/-- Every roster key is present among the header defaults. -/
theorem roster_mem_defaults : ∀ k ∈ rosterKeys, ∃ v, (k, v) ∈ defaultHeaders := by
  intro k hk
  simp only [rosterKeys, List.mem_cons, List.not_mem_nil, or_false] at hk
  rcases hk with rfl | rfl | rfl | rfl | rfl | rfl | rfl
  · exact ⟨"?", by decide⟩
  · exact ⟨"?", by decide⟩
  · exact ⟨"????.??.??", by decide⟩
  · exact ⟨"?", by decide⟩
  · exact ⟨"?", by decide⟩
  · exact ⟨"?", by decide⟩
  · exact ⟨"*", by decide⟩

/-- Every default header key belongs to the roster. -/
theorem defaults_key_roster : ∀ k v, (k, v) ∈ defaultHeaders → k ∈ rosterKeys := by
  intro k v h
  simp only [defaultHeaders, List.mem_cons, List.not_mem_nil, or_false,
    Prod.mk.injEq] at h
  rcases h with ⟨rfl, _⟩ | ⟨rfl, _⟩ | ⟨rfl, _⟩ | ⟨rfl, _⟩ | ⟨rfl, _⟩ |
    ⟨rfl, _⟩ | ⟨rfl, _⟩ <;> decide

/-- Every roster key is present among the headers of an export. -/
theorem roster_mem_exportHeaders :
    ∀ (md : Option (List (String × Option String))) (f : Option String)
      (k : String), k ∈ rosterKeys → ∃ v, (k, v) ∈ exportHeaders md f := by
  intro md f k hk
  have h1 : ∃ v, (k, v) ∈ baseHeaders md := by
    cases md with
    | none => exact roster_mem_defaults k hk
    | some m => exact keys_applyMetadata m k (roster_mem_defaults k hk)
  cases f with
  | none => exact h1
  | some s =>
    show ∃ v, (k, v) ∈
      (if s = STARTING_FEN then baseHeaders md
       else setHeader (setHeader (baseHeaders md) "SetUp" "1") "FEN" s)
    by_cases hs : s = STARTING_FEN
    · rw [if_pos hs]
      exact h1
    · rw [if_neg hs]
      exact keys_setHeader (keys_setHeader h1)

/-- Every header of an export is a roster key, a set metadata key, or the
`SetUp`/`FEN` pair added for a non-standard start FEN. -/
theorem exportHeaders_key_origin :
    ∀ (md : Option (List (String × Option String))) (f : Option String)
      (k v : String), (k, v) ∈ exportHeaders md f →
      k ∈ rosterKeys ∨ mdSets md k ∨
        ((k = "SetUp" ∨ k = "FEN") ∧ nonStdFen f) := by
  intro md f k v h
  have base : ∀ v', (k, v') ∈ baseHeaders md →
      k ∈ rosterKeys ∨ mdSets md k := by
    intro v' hv
    unfold baseHeaders at hv
    cases md with
    | none => exact .inl (defaults_key_roster k v' hv)
    | some m =>
      rcases mem_applyMetadata m k v' hv with hd | ⟨w, hw⟩
      · exact .inl (defaults_key_roster k v' hd)
      · exact .inr ⟨w, hw⟩
  cases f with
  | none => exact (base v h).imp id .inl
  | some s =>
    replace h : (k, v) ∈
        (if s = STARTING_FEN then baseHeaders md
         else setHeader (setHeader (baseHeaders md) "SetUp" "1") "FEN" s) := h
    by_cases hs : s = STARTING_FEN
    · rw [if_pos hs] at h
      exact (base v h).imp id .inl
    · rw [if_neg hs] at h
      rcases mem_setHeader h with h | rfl
      · rcases mem_setHeader h with h | rfl
        · exact (base v h).imp id .inl
        · exact .inr (.inr ⟨.inl rfl, hs⟩)
      · exact .inr (.inr ⟨.inr rfl, hs⟩)

/-! ### Decimal, square and piece codec round-trips -/

theorem digitVal_digitChar : ∀ d, d < 10 → digitVal (Nat.digitChar d) = some d := by
  intro d hd
  interval_cases d <;> decide

theorem digitChar_not_special : ∀ d, d < 10 →
    Nat.digitChar d ≠ '-' ∧ Nat.digitChar d ≠ '+' ∧ Nat.digitChar d ≠ ' ' ∧
      Nat.digitChar d ≠ '/' := by
  intro d hd
  interval_cases d <;> refine ⟨by decide, by decide, by decide, by decide⟩

theorem digitsGo_append : ∀ (xs ys : List Char) (acc : Nat),
    digitsGo (xs ++ ys) acc =
      match digitsGo xs acc with
      | some a => digitsGo ys a
      | none => none := by
  intro xs
  induction xs with
  | nil => intro ys acc; rfl
  | cons c cs ih =>
    intro ys acc
    simp only [List.cons_append, digitsGo]
    cases digitVal c with
    | none => rfl
    | some d => exact ih ys (acc * 10 + d)

theorem digitsGo_natStrAux : ∀ (fuel n acc : Nat), n < 10 ^ fuel →
    digitsGo (natStrAux fuel n) acc =
      some (acc * 10 ^ (natStrAux fuel n).length + n) := by
  intro fuel
  induction fuel with
  | zero =>
    intro n acc hn
    simp only [pow_zero, Nat.lt_one_iff] at hn
    subst hn
    simp [natStrAux, digitsGo]
  | succ fuel ih =>
    intro n acc hn
    by_cases h10 : n < 10
    · simp only [natStrAux, if_pos h10, digitsGo, digitVal_digitChar n h10,
        List.length_singleton, pow_one]
    · have hdiv : n / 10 < 10 ^ fuel := by
        have h1 : n < 10 ^ fuel * 10 := by
          rw [← pow_succ]
          exact hn
        omega
      simp only [natStrAux, if_neg h10]
      rw [digitsGo_append, ih (n / 10) acc hdiv]
      simp only [digitsGo, digitVal_digitChar (n % 10) (Nat.mod_lt n (by omega)),
        List.length_append, List.length_singleton]
      have : (acc * 10 ^ (natStrAux fuel (n / 10)).length + n / 10) * 10 +
          n % 10 = acc * 10 ^ ((natStrAux fuel (n / 10)).length + 1) + n := by
        rw [pow_succ, ← mul_assoc]
        omega
      rw [this]

theorem natStrAux_ne_nil : ∀ (fuel n : Nat), natStrAux (fuel + 1) n ≠ [] := by
  intro fuel n
  by_cases h10 : n < 10
  · simp [natStrAux, if_pos h10]
  · simp [natStrAux, if_neg h10]

theorem lt_ten_pow_succ (n : Nat) : n < 10 ^ (n + 1) := by
  calc n < 10 ^ n := Nat.lt_pow_self (by omega) n
    _ ≤ 10 ^ (n + 1) := Nat.pow_le_pow_right (by omega) (by omega)

theorem digitsVal_natStr (n : Nat) : digitsVal (natStr n) = some n := by
  have hne := natStrAux_ne_nil n n
  have hval : digitsGo (natStrAux (n + 1) n) 0 = some n := by
    rw [digitsGo_natStrAux (n + 1) n 0 (lt_ten_pow_succ n)]
    simp
  show digitsVal (natStrAux (n + 1) n) = some n
  cases h : natStrAux (n + 1) n with
  | nil => exact absurd h hne
  | cons c cs =>
    rw [← hval, h]
    rfl

theorem natStrAux_chars : ∀ (fuel n : Nat) (c : Char), c ∈ natStrAux fuel n →
    ∃ d, d < 10 ∧ c = Nat.digitChar d := by
  intro fuel
  induction fuel with
  | zero => intro n c h; exact absurd h (by simp [natStrAux])
  | succ fuel ih =>
    intro n c h
    by_cases h10 : n < 10
    · simp only [natStrAux, if_pos h10, List.mem_singleton] at h
      exact ⟨n, h10, h⟩
    · simp only [natStrAux, if_neg h10, List.mem_append,
        List.mem_singleton] at h
      rcases h with h | h
      · exact ih (n / 10) c h
      · exact ⟨n % 10, Nat.mod_lt n (by omega), h⟩

theorem pyIntChars_digits : ∀ (c : Char) (cs : List Char), c ≠ '-' → c ≠ '+' →
    pyIntChars (c :: cs) = (digitsVal (c :: cs)).map (fun n => (n : Int)) := by
  intro c cs hm hp
  unfold pyIntChars
  split
  · next heq => cases heq; exact absurd rfl hm
  · next heq => cases heq; exact absurd rfl hp
  · rfl

theorem pyIntChars_natStr (n : Nat) : pyIntChars (natStr n) = some (n : Int) := by
  cases h : natStr n with
  | nil => exact absurd h (natStrAux_ne_nil n n)
  | cons c cs =>
    have hc : ∃ d, d < 10 ∧ c = Nat.digitChar d := by
      apply natStrAux_chars (n + 1) n c
      rw [← show natStr n = natStrAux (n + 1) n from rfl, h]
      exact List.mem_cons_self _ _
    obtain ⟨d, hd, rfl⟩ := hc
    obtain ⟨h1, h2, _, _⟩ := digitChar_not_special d hd
    rw [pyIntChars_digits _ _ h1 h2, ← h, digitsVal_natStr]
    rfl

theorem fileVal_fileChar : ∀ f, f < 8 → fileVal (fileChar f) = some f := by
  intro f hf
  interval_cases f <;> decide

theorem rankVal_rankChar : ∀ r, r < 8 → rankVal (rankChar r) = some r := by
  intro r hr
  interval_cases r <;> decide

theorem parseSquare_name : ∀ s, s < 64 →
    parseSquareChars (fileChar (s % 8)) (rankChar (s / 8)) = some s := by
  intro s hs
  unfold parseSquareChars
  rw [fileVal_fileChar (s % 8) (Nat.mod_lt s (by omega)),
    rankVal_rankChar (s / 8) (by omega)]
  simp only [Option.bind_eq_bind, Option.some_bind]
  congr 1
  omega

theorem pieceFromChar_pieceChar : ∀ p, pieceFromChar (pieceChar p) = some p := by
  intro ⟨c, t⟩
  cases c <;> cases t <;> decide

theorem fileChar_cases : ∀ n, fileChar n = 'a' ∨ fileChar n = 'b' ∨
    fileChar n = 'c' ∨ fileChar n = 'd' ∨ fileChar n = 'e' ∨
    fileChar n = 'f' ∨ fileChar n = 'g' ∨ fileChar n = 'h' := by
  intro n
  match n with
  | 0 => exact .inl rfl
  | 1 => exact .inr (.inl rfl)
  | 2 => exact .inr (.inr (.inl rfl))
  | 3 => exact .inr (.inr (.inr (.inl rfl)))
  | 4 => exact .inr (.inr (.inr (.inr (.inl rfl))))
  | 5 => exact .inr (.inr (.inr (.inr (.inr (.inl rfl)))))
  | 6 => exact .inr (.inr (.inr (.inr (.inr (.inr (.inl rfl))))))
  | (m + 7) => exact .inr (.inr (.inr (.inr (.inr (.inr (.inr rfl))))))

theorem rankChar_cases : ∀ n, rankChar n = '1' ∨ rankChar n = '2' ∨
    rankChar n = '3' ∨ rankChar n = '4' ∨ rankChar n = '5' ∨
    rankChar n = '6' ∨ rankChar n = '7' ∨ rankChar n = '8' := by
  intro n
  match n with
  | 0 => exact .inl rfl
  | 1 => exact .inr (.inl rfl)
  | 2 => exact .inr (.inr (.inl rfl))
  | 3 => exact .inr (.inr (.inr (.inl rfl)))
  | 4 => exact .inr (.inr (.inr (.inr (.inl rfl))))
  | 5 => exact .inr (.inr (.inr (.inr (.inr (.inl rfl)))))
  | 6 => exact .inr (.inr (.inr (.inr (.inr (.inr (.inl rfl))))))
  | (m + 7) => exact .inr (.inr (.inr (.inr (.inr (.inr (.inr rfl))))))

/-! ### FEN rank and board round-trips -/

theorem digitVal18_digitChar : ∀ n, 1 ≤ n → n ≤ 8 →
    digitVal18 (Nat.digitChar n) = some n := by
  intro n h1 h8
  interval_cases n <;> decide

theorem digitVal18_pieceChar : ∀ p, digitVal18 (pieceChar p) = none := by
  intro ⟨c, t⟩
  cases c <;> cases t <;> decide

theorem pieceChar_not_special : ∀ p, pieceChar p ≠ '/' ∧ pieceChar p ≠ ' ' := by
  intro ⟨c, t⟩
  cases c <;> cases t <;> exact ⟨by decide, by decide⟩

theorem parseRankAux_print : ∀ (row : List (Option Piece)) (run : Nat),
    run + row.length ≤ 8 →
    parseRankAux (printRankAux row run) false =
      some (List.replicate run none ++ row) := by
  intro row
  induction row with
  | nil =>
    intro run hle
    by_cases h0 : run = 0
    · subst h0; rfl
    · have h1 : 1 ≤ run := by omega
      have h8 : run ≤ 8 := by simpa using hle
      simp only [printRankAux, if_neg h0, parseRankAux,
        digitVal18_digitChar run h1 h8]
      simp [parseRankAux]
  | cons cell rest ih =>
    intro run hle
    cases cell with
    | none =>
      have h := ih (run + 1) (by simp only [List.length_cons] at hle; omega)
      simp only [printRankAux]
      rw [h, List.replicate_succ' run, List.append_assoc]
      rfl
    | some p =>
      by_cases h0 : run = 0
      · subst h0
        simp only [printRankAux, if_pos rfl, List.nil_append, parseRankAux,
          digitVal18_pieceChar p, pieceFromChar_pieceChar p]
        rw [ih 0 (by simp only [List.length_cons] at hle; omega)]
        rfl
      · have h1 : 1 ≤ run := by omega
        have h8 : run ≤ 8 := by simp only [List.length_cons] at hle; omega
        simp only [printRankAux, if_neg h0, List.cons_append,
          List.singleton_append, parseRankAux, digitVal18_digitChar run h1 h8,
          digitVal18_pieceChar p, pieceFromChar_pieceChar p]
        rw [ih 0 (by simp only [List.length_cons] at hle; omega)]
        rfl

theorem parseRank_print (row : List (Option Piece)) (h8 : row.length = 8) :
    parseRank (printRankAux row 0) = some row := by
  unfold parseRank
  rw [parseRankAux_print row 0 (by omega)]
  simp [h8]

theorem printRankAux_chars : ∀ (row : List (Option Piece)) (run : Nat)
    (c : Char), run + row.length ≤ 8 → c ∈ printRankAux row run →
    c ≠ '/' ∧ c ≠ ' ' := by
  intro row
  induction row with
  | nil =>
    intro run c hle hc
    by_cases h0 : run = 0
    · subst h0; exact absurd hc (by simp [printRankAux])
    · simp only [printRankAux, if_neg h0, List.mem_singleton] at hc
      subst hc
      simp only [List.length_nil] at hle
      obtain ⟨_, _, hs, hsl⟩ := digitChar_not_special run (by omega)
      exact ⟨hsl, hs⟩
  | cons cell rest ih =>
    intro run c hle hc
    cases cell with
    | none =>
      exact ih (run + 1) c (by simp only [List.length_cons] at hle; omega)
        (by simpa [printRankAux] using hc)
    | some p =>
      simp only [printRankAux, List.mem_append, List.mem_cons] at hc
      rcases hc with hc | hc | hc
      · by_cases h0 : run = 0
        · rw [if_pos h0] at hc; exact absurd hc (by simp)
        · rw [if_neg h0] at hc
          simp only [List.mem_singleton] at hc
          subst hc
          have h8 : run < 10 := by simp only [List.length_cons] at hle; omega
          obtain ⟨_, _, hs, hsl⟩ := digitChar_not_special run h8
          exact ⟨hsl, hs⟩
      · subst hc; exact pieceChar_not_special p
      · exact ih 0 c (by simp only [List.length_cons] at hle; omega) hc

theorem splitOnChar_not_mem : ∀ (a : List Char) (sep : Char), sep ∉ a →
    splitOnChar sep a = [a] := by
  intro a sep
  induction a with
  | nil => intro _; rfl
  | cons c cs ih =>
    intro h
    have hc : c ≠ sep := fun he => h (he ▸ List.mem_cons_self c cs)
    have hcs : sep ∉ cs := fun hm => h (List.mem_cons_of_mem c hm)
    simp only [splitOnChar, if_neg hc, ih hcs]

theorem splitOnChar_append : ∀ (a rest : List Char) (sep : Char), sep ∉ a →
    splitOnChar sep (a ++ sep :: rest) = a :: splitOnChar sep rest := by
  intro a
  induction a with
  | nil =>
    intro rest sep _
    simp [splitOnChar]
  | cons c cs ih =>
    intro rest sep h
    have hc : c ≠ sep := fun he => h (he ▸ List.mem_cons_self c cs)
    have hcs : sep ∉ cs := fun hm => h (List.mem_cons_of_mem c hm)
    show splitOnChar sep (c :: (cs ++ sep :: rest)) = _
    simp only [splitOnChar, if_neg hc]
    rw [ih rest sep hcs]

theorem splitOnChar_joinSep : ∀ (parts : List (List Char)) (sep : Char),
    parts ≠ [] → (∀ p ∈ parts, sep ∉ p) →
    splitOnChar sep (joinSep sep parts) = parts := by
  intro parts
  induction parts with
  | nil => intro sep h _; exact absurd rfl h
  | cons x ys ih =>
    intro sep _ hmem
    cases ys with
    | nil =>
      exact splitOnChar_not_mem x sep (hmem x (List.mem_cons_self _ _))
    | cons y rest =>
      show splitOnChar sep (x ++ sep :: joinSep sep (y :: rest)) = _
      rw [splitOnChar_append x _ sep (hmem x (List.mem_cons_self _ _))]
      rw [ih sep (by simp) (fun p hp => hmem p (List.mem_cons_of_mem x hp))]

theorem mapM_eq_some_map {α β : Type} (f : α → Option β) (g : α → β) :
    ∀ (xs : List α), (∀ x ∈ xs, f x = some (g x)) →
    xs.mapM f = some (xs.map g) := by
  intro xs
  induction xs with
  | nil => intro _; rfl
  | cons x rest ih =>
    intro h
    rw [List.mapM_cons, h x (List.mem_cons_self _ _),
      ih (fun y hy => h y (List.mem_cons_of_mem x hy))]
    rfl

theorem range8_map_getD_take (l : List (Option Piece)) (h : 8 ≤ l.length) :
    (List.range 8).map (fun f => l.getD f none) = l.take 8 := by
  match l, h with
  | a :: b :: c :: d :: e :: f :: g :: h' :: t, _ => rfl

theorem flatten_rows_eq : ∀ (k : Nat) (l : List (Option Piece)),
    l.length = 8 * k →
    ((List.range k).map (fun r =>
      (List.range 8).map (fun f => l.getD (8 * r + f) none))).flatten = l := by
  intro k
  induction k with
  | zero =>
    intro l hl
    simp only [Nat.mul_zero, List.length_eq_zero] at hl
    subst hl
    rfl
  | succ k ih =>
    intro l hl
    have hdl : (l.drop 8).length = 8 * k := by
      rw [List.length_drop, hl]
      omega
    rw [List.range_succ_eq_map k]
    simp only [List.map_cons, List.map_map, List.flatten_cons]
    have h0 : (List.range 8).map (fun f => l.getD (8 * 0 + f) none) =
        l.take 8 := by
      rw [← range8_map_getD_take l (by omega)]
      apply List.map_congr_left
      intro f _
      norm_num
    have hrest : (List.range k).map
        ((fun r => (List.range 8).map (fun f => l.getD (8 * r + f) none)) ∘
          Nat.succ) =
        (List.range k).map (fun r =>
          (List.range 8).map (fun f => (l.drop 8).getD (8 * r + f) none)) := by
      apply List.map_congr_left
      intro r _
      simp only [Function.comp_apply]
      apply List.map_congr_left
      intro f _
      simp only [List.getD_eq_getElem?_getD, List.getElem?_drop]
      have hidx : 8 + (8 * r + f) = 8 * Nat.succ r + f := by omega
      rw [hidx]
    rw [h0, hrest, ih (l.drop 8) hdl, List.take_append_drop]

theorem row_length (b : Board) (r : Nat) : (b.row r).length = 8 := by
  simp [Board.row]

theorem mapM_parseRank : ∀ (rs : List Nat) (b : Board),
    (rs.map (fun r => printRankAux (b.row r) 0)).mapM parseRank =
      some (rs.map b.row) := by
  intro rs b
  induction rs with
  | nil => rfl
  | cons r rest ih =>
    rw [List.map_cons, List.mapM_cons, parseRank_print (b.row r) (row_length b r),
      ih]
    rfl

theorem parseBoard_print (b : Board) (hlen : b.cells.length = 64) :
    parseBoardChars (printBoardChars b) = some b.cells := by
  have hsplit : splitOnChar '/' (joinSep '/'
      ((List.range 8).reverse.map fun r => printRankAux (b.row r) 0)) =
      (List.range 8).reverse.map fun r => printRankAux (b.row r) 0 := by
    apply splitOnChar_joinSep
    · simp [List.range_succ]
    · intro p hp hc
      obtain ⟨r, _, rfl⟩ := List.mem_map.mp hp
      exact (printRankAux_chars (b.row r) 0 '/'
        (by simp [row_length]) hc).1 rfl
  have hlen8 : (((List.range 8).reverse.map
      fun r => printRankAux (b.row r) 0)).length = 8 := by simp
  have hflat : ((List.range 8).map b.row).flatten = b.cells := by
    rw [← flatten_rows_eq 8 b.cells (by rw [hlen])]
    congr 1
  unfold parseBoardChars printBoardChars
  rw [hsplit, if_pos hlen8, mapM_parseRank]
  simp only [Option.bind_eq_bind, Option.some_bind]
  rw [List.map_reverse, List.reverse_reverse]
  exact congrArg some hflat

/-! ### FEN field round-trips and splitting -/

theorem parseCastling_print : ∀ wk wq bk bq,
    parseCastlingChars (printCastling wk wq bk bq) = some (wk, wq, bk, bq) := by
  decide

theorem printCastling_no_space : ∀ wk wq bk bq, ' ' ∉ printCastling wk wq bk bq := by
  decide

theorem printCastling_ne_nil : ∀ wk wq bk bq, printCastling wk wq bk bq ≠ [] := by
  decide

theorem mem_joinSep : ∀ (parts : List (List Char)) (sep c : Char),
    c ∈ joinSep sep parts → c = sep ∨ ∃ p ∈ parts, c ∈ p := by
  intro parts
  induction parts with
  | nil => intro sep c h; exact absurd h (by simp [joinSep])
  | cons x ys ih =>
    intro sep c h
    cases ys with
    | nil => exact .inr ⟨x, List.mem_cons_self _ _, h⟩
    | cons y rest =>
      rcases List.mem_append.mp h with h | h
      · exact .inr ⟨x, List.mem_cons_self _ _, h⟩
      · rcases List.mem_cons.mp h with rfl | h
        · exact .inl rfl
        · rcases ih sep c h with h | ⟨p, hp, hc⟩
          · exact .inl h
          · exact .inr ⟨p, List.mem_cons_of_mem x hp, hc⟩

theorem joinSep_ne_nil (sep : Char) (x y : List Char)
    (rest : List (List Char)) : joinSep sep (x :: y :: rest) ≠ [] := by
  simp [joinSep]

theorem printBoard_no_space (b : Board) : ' ' ∉ printBoardChars b := by
  intro h
  unfold printBoardChars at h
  rcases mem_joinSep _ _ _ h with h | ⟨p, hp, hmem⟩
  · exact absurd h (by decide)
  · obtain ⟨r, _, rfl⟩ := List.mem_map.mp hp
    exact (printRankAux_chars (b.row r) 0 ' '
      (by simp [row_length]) hmem).2 rfl

theorem printBoard_ne_nil (b : Board) : printBoardChars b ≠ [] := by
  unfold printBoardChars
  rw [show (List.range 8).reverse = [7, 6, 5, 4, 3, 2, 1, 0] from rfl]
  simp only [List.map_cons]
  exact joinSep_ne_nil _ _ _ _

theorem natStr_no_space (n : Nat) : ' ' ∉ natStr n := by
  intro h
  obtain ⟨d, hd, he⟩ := natStrAux_chars (n + 1) n ' ' h
  exact (digitChar_not_special d hd).2.2.1 he.symm

theorem squareName_no_space (s : Nat) : ' ' ∉ squareNameChars s := by
  intro h
  simp only [squareNameChars, List.mem_cons, List.not_mem_nil, or_false] at h
  rcases h with h | h
  · rcases fileChar_cases (s % 8) with hc | hc | hc | hc | hc | hc | hc | hc <;>
      rw [hc] at h <;> exact absurd h (by decide)
  · rcases rankChar_cases (s / 8) with hc | hc | hc | hc | hc | hc | hc | hc <;>
      rw [hc] at h <;> exact absurd h (by decide)

theorem splitWs_append (a rest : List Char) (hna : ' ' ∉ a) (hne : a ≠ []) :
    splitWs (a ++ ' ' :: rest) = a :: splitWs rest := by
  unfold splitWs
  rw [splitOnChar_append a rest ' ' hna]
  simp [hne]

theorem splitWs_single (a : List Char) (hna : ' ' ∉ a) (hne : a ≠ []) :
    splitWs a = [a] := by
  unfold splitWs
  rw [splitOnChar_not_mem a ' ' hna]
  simp [hne]

theorem splitWs_fen (b : Board) :
    splitWs b.fen.data =
      [printBoardChars b,
       if b.turn = .white then ['w'] else ['b'],
       printCastlingChars b,
       (match b.legalEpSquare with
        | some e => squareNameChars e
        | none => ['-']),
       natStr b.halfmove, natStr b.fullmove] := by
  have hfen : b.fen.data =
      printBoardChars b ++ ' ' ::
        ((if b.turn = .white then ['w'] else ['b']) ++ ' ' ::
          (printCastlingChars b ++ ' ' ::
            ((match b.legalEpSquare with
              | some e => squareNameChars e
              | none => ['-']) ++ ' ' ::
              (natStr b.halfmove ++ ' ' :: natStr b.fullmove)))) := by
    show (printBoardChars b ++ [' '] ++ _ ++ [' '] ++ _ ++ [' '] ++ _ ++
      [' '] ++ _ ++ [' '] ++ _ : List Char) = _
    simp [List.append_assoc]
  rw [hfen]
  rw [splitWs_append _ _ (printBoard_no_space b) (printBoard_ne_nil b)]
  rw [splitWs_append _ _
    (by cases b.turn <;> simp)
    (by cases b.turn <;> simp)]
  rw [splitWs_append _ _
    (show ' ' ∉ printCastlingChars b from
      printCastling_no_space b.castleWK b.castleWQ b.castleBK b.castleBQ)
    (show printCastlingChars b ≠ [] from
      printCastling_ne_nil b.castleWK b.castleWQ b.castleBK b.castleBQ)]
  rw [splitWs_append _ _
    (by cases b.legalEpSquare with
        | none => decide
        | some e => exact squareName_no_space e)
    (by cases b.legalEpSquare with
        | none => decide
        | some e => simp [squareNameChars])]
  rw [splitWs_append _ _ (natStr_no_space b.halfmove)
    (natStrAux_ne_nil b.halfmove b.halfmove)]
  rw [splitWs_single _ (natStr_no_space b.fullmove)
    (natStrAux_ne_nil b.fullmove b.fullmove)]

theorem parseTurnField_print (c : Color) :
    parseTurnField (some (if c = Color.white then ['w'] else ['b'])) = some c := by
  cases c <;> rfl

theorem parseCastleField_print (b : Board) :
    parseCastleField (some (printCastlingChars b)) =
      some (b.castleWK, b.castleWQ, b.castleBK, b.castleBQ) :=
  parseCastling_print b.castleWK b.castleWQ b.castleBK b.castleBQ

theorem legalEpSquare_eq_some (b : Board) (e : Nat)
    (h : b.legalEpSquare = some e) : b.ep = some e := by
  unfold Board.legalEpSquare at h
  by_cases hc : b.ep.isSome && b.legalMoves.any (fun m => b.isEnPassant m)
  · rw [if_pos hc] at h; exact h
  · rw [if_neg hc] at h; exact absurd h (by simp)

theorem parseEpField_print (b : Board)
    (h64 : ∀ e, b.legalEpSquare = some e → e < 64) :
    parseEpField (some (match b.legalEpSquare with
      | some e => squareNameChars e
      | none => ['-'])) = some b.legalEpSquare := by
  cases he : b.legalEpSquare with
  | none => rfl
  | some e =>
    have hne : squareNameChars e ≠ ['-'] := by simp [squareNameChars]
    show (if squareNameChars e = ['-'] then some none
      else
        match squareNameChars e with
        | [cf, cr] => Option.map some (parseSquareChars cf cr)
        | _ => none) = some (some e)
    rw [if_neg hne]
    show Option.map some
      (parseSquareChars (fileChar (e % 8)) (rankChar (e / 8))) = some (some e)
    rw [parseSquare_name e (h64 e he)]
    rfl

theorem parseHalfmoveField_print (n : Nat) :
    parseHalfmoveField (some (natStr n)) = some n := by
  show (pyIntChars (natStr n)).bind
    (fun v => if v < 0 then none else some v.toNat) = some n
  rw [pyIntChars_natStr n, Option.some_bind, if_neg (by omega),
    Int.toNat_natCast]

theorem parseFullmoveField_print (n : Nat) (h1 : 1 ≤ n) :
    parseFullmoveField (some (natStr n)) = some n := by
  show (pyIntChars (natStr n)).bind
    (fun v => if v < 0 then none else some (max v.toNat 1)) = some n
  rw [pyIntChars_natStr n, Option.some_bind, if_neg (by omega),
    Int.toNat_natCast, Nat.max_eq_left h1]

/-- The FEN round trip: parsing a printed FEN recovers the board exactly,
except that the en-passant field holds precisely what the FEN records (the
square only when a legal en-passant capture exists). -/
theorem parseFen_fen (b : Board) (hwf : b.WF) :
    parseFen b.fen = some (epCanon b) := by
  obtain ⟨hlen, hfull, hepwf⟩ := hwf
  have h64 : ∀ e, b.legalEpSquare = some e → e < 64 := by
    intro e he
    have hb := legalEpSquare_eq_some b e he
    exact hepwf e (by rw [hb]; rfl)
  unfold parseFen
  rw [splitWs_fen b]
  rw [if_neg (by simp)]
  show (parseBoardChars (printBoardChars b)).bind (fun cells =>
      (parseTurnField (some (if b.turn = Color.white then ['w'] else ['b']))).bind
        fun turn =>
      (parseCastleField (some (printCastlingChars b))).bind fun c4 =>
      (parseEpField (some (match b.legalEpSquare with
        | some e => squareNameChars e
        | none => ['-']))).bind fun ep =>
      (parseHalfmoveField (some (natStr b.halfmove))).bind fun hm =>
      (parseFullmoveField (some (natStr b.fullmove))).bind fun fm =>
      some { cells := cells, turn := turn, castleWK := c4.1,
             castleWQ := c4.2.1, castleBK := c4.2.2.1, castleBQ := c4.2.2.2,
             ep := ep, halfmove := hm, fullmove := fm }) = some (epCanon b)
  rw [parseBoard_print b hlen, Option.some_bind, parseTurnField_print b.turn,
    Option.some_bind, parseCastleField_print b, Option.some_bind,
    parseEpField_print b h64, Option.some_bind,
    parseHalfmoveField_print b.halfmove, Option.some_bind,
    parseFullmoveField_print b.fullmove hfull, Option.some_bind]
  rfl

/-! ### Shape of generated moves -/

theorem shift_file_rank {s t : Nat} {df dr : Int} (h : shift s df dr = some t) :
    t < 64 ∧ ((t % 8 : Nat) : Int) = ((s % 8 : Nat) : Int) + df ∧
      ((t / 8 : Nat) : Int) = ((s / 8 : Nat) : Int) + dr := by
  replace h : (if 0 ≤ ((s % 8 : Nat) : Int) + df ∧ ((s % 8 : Nat) : Int) + df < 8 ∧
      0 ≤ ((s / 8 : Nat) : Int) + dr ∧ ((s / 8 : Nat) : Int) + dr < 8 then
      some (8 * (((s / 8 : Nat) : Int) + dr) + (((s % 8 : Nat) : Int) + df)).toNat
    else none) = some t := h
  split at h
  · rename_i hc
    obtain ⟨h1, h2, h3, h4⟩ := hc
    simp only [Option.some.injEq] at h
    subst h
    refine ⟨?_, ?_, ?_⟩ <;> omega
  · exact absurd h (by simp)

theorem shift_ne {s t : Nat} {df dr : Int} (h : shift s df dr = some t)
    (hd : ¬(df = 0 ∧ dr = 0)) : t ≠ s := by
  obtain ⟨_, hf, hr⟩ := shift_file_rank h
  intro he
  subst he
  omega

theorem mem_foldr_append {α β : Type} (f : α → List β) :
    ∀ (l : List α) (x : β),
      x ∈ l.foldr (fun d acc => f d ++ acc) [] → ∃ d ∈ l, x ∈ f d := by
  intro l
  induction l with
  | nil => intro x h; exact absurd h (by simp)
  | cons d rest ih =>
    intro x h
    simp only [List.foldr_cons, List.mem_append] at h
    rcases h with h | h
    · exact ⟨d, List.mem_cons_self _ _, h⟩
    · obtain ⟨d2, hd2, hx⟩ := ih x h
      exact ⟨d2, List.mem_cons_of_mem d hd2, hx⟩

theorem rayAux_measure {b : Board} {c : Color} {df dr : Int}
    (hd : ¬(df = 0 ∧ dr = 0)) :
    ∀ (fuel cur t : Nat), t ∈ rayAux b c df dr fuel cur →
      df * ((t % 8 : Nat) : Int) + dr * ((t / 8 : Nat) : Int) >
        df * ((cur % 8 : Nat) : Int) + dr * ((cur / 8 : Nat) : Int) ∧
      t < 64 := by
  intro fuel
  induction fuel with
  | zero => intro cur t h; exact absurd h (by simp [rayAux])
  | succ fuel ih =>
    intro cur t h
    have hpos : 0 < df * df + dr * dr := by
      rcases not_and_or.mp hd with h0 | h0
      · nlinarith [mul_self_nonneg df, mul_self_nonneg dr,
          mul_self_pos.mpr h0]
      · nlinarith [mul_self_nonneg df, mul_self_nonneg dr,
          mul_self_pos.mpr h0]
    unfold rayAux at h
    cases hs : shift cur df dr with
    | none => rw [hs] at h; exact absurd h (by simp)
    | some t0 =>
      rw [hs] at h
      replace h : t ∈ (match b.pieceAt t0 with
        | none => t0 :: rayAux b c df dr fuel t0
        | some p => if p.color = c then [] else [t0]) := h
      obtain ⟨ht0lt, hf0, hr0⟩ := shift_file_rank hs
      have hstep : df * ((t0 % 8 : Nat) : Int) + dr * ((t0 / 8 : Nat) : Int) =
          df * ((cur % 8 : Nat) : Int) + dr * ((cur / 8 : Nat) : Int) +
            (df * df + dr * dr) := by
        rw [hf0, hr0]
        ring
      cases hp : b.pieceAt t0 with
      | none =>
        rw [hp] at h
        replace h : t ∈ t0 :: rayAux b c df dr fuel t0 := h
        rcases List.mem_cons.mp h with rfl | h
        · exact ⟨by omega, ht0lt⟩
        · obtain ⟨hgt, hlt⟩ := ih t0 t h
          exact ⟨by omega, hlt⟩
      | some p =>
        rw [hp] at h
        replace h : t ∈ (if p.color = c then [] else [t0]) := h
        by_cases hc : p.color = c
        · rw [if_pos hc] at h; exact absurd h (by simp)
        · rw [if_neg hc] at h
          rcases List.mem_singleton.mp h with rfl
          exact ⟨by omega, ht0lt⟩

theorem ray_shape {b : Board} {c : Color} {s t : Nat} {df dr : Int}
    (hd : ¬(df = 0 ∧ dr = 0)) (h : t ∈ ray b c s df dr) :
    t < 64 ∧ t ≠ s := by
  obtain ⟨hgt, hlt⟩ := rayAux_measure hd 7 s t h
  exact ⟨hlt, fun he => by subst he; omega⟩

theorem pawnTargets_shape {c : Color} {s t : Nat} {m : Move}
    (h : m ∈ pawnTargets c s t) : m.fromSq = s ∧ m.toSq = t := by
  replace h : m ∈ (if t / 8 = (if c = .white then 7 else 0) then
      [Move.mk s t (some .queen), Move.mk s t (some .rook),
       Move.mk s t (some .bishop), Move.mk s t (some .knight)]
    else [Move.mk s t none]) := h
  by_cases hpr : t / 8 = (if c = .white then 7 else 0)
  · rw [if_pos hpr] at h
    simp only [List.mem_cons, List.not_mem_nil, or_false] at h
    rcases h with rfl | rfl | rfl | rfl <;> exact ⟨rfl, rfl⟩
  · rw [if_neg hpr] at h
    rcases List.mem_singleton.mp h with rfl
    exact ⟨rfl, rfl⟩

theorem jumpMoves_shape {b : Board} {c : Color} {s : Nat}
    {offs : List (Int × Int)} {m : Move}
    (hoffs : ∀ d ∈ offs, ¬(d.1 = 0 ∧ d.2 = 0)) (h : m ∈ jumpMoves b c s offs) :
    m.fromSq = s ∧ m.toSq < 64 ∧ m.toSq ≠ s := by
  obtain ⟨d, hd, hx⟩ := mem_foldr_append
    (fun d : Int × Int =>
      match shift s d.1 d.2 with
      | none => []
      | some t => if (b.pieceAt t).any (fun p => p.color = c) then [] else
          [Move.mk s t none]) offs m h
  cases hs : shift s d.1 d.2 with
  | none => rw [hs] at hx; exact absurd hx (by simp)
  | some t =>
    rw [hs] at hx
    replace hx : m ∈ (if (b.pieceAt t).any (fun p => p.color = c) then []
      else [Move.mk s t none]) := hx
    split at hx
    · exact absurd hx (by simp)
    · rcases List.mem_singleton.mp hx with rfl
      obtain ⟨hlt, _, _⟩ := shift_file_rank hs
      exact ⟨rfl, hlt, shift_ne hs (hoffs d hd)⟩

theorem slideMoves_shape {b : Board} {c : Color} {s : Nat}
    {dirs : List (Int × Int)} {m : Move}
    (hdirs : ∀ d ∈ dirs, ¬(d.1 = 0 ∧ d.2 = 0)) (h : m ∈ slideMoves b c s dirs) :
    m.fromSq = s ∧ m.toSq < 64 ∧ m.toSq ≠ s := by
  obtain ⟨d, hd, hx⟩ := mem_foldr_append
    (fun d : Int × Int => (ray b c s d.1 d.2).map (fun t => Move.mk s t none))
    dirs m h
  obtain ⟨t, ht, rfl⟩ := List.mem_map.mp hx
  obtain ⟨hlt, hne⟩ := ray_shape (hdirs d hd) ht
  exact ⟨rfl, hlt, hne⟩

theorem pawnMoves_shape {b : Board} {c : Color} {s : Nat} {m : Move}
    (h : m ∈ pawnMoves b c s) : m.fromSq = s ∧ m.toSq < 64 ∧ m.toSq ≠ s := by
  have hdir : ¬((0 : Int) = 0 ∧ (if c = .white then (1 : Int) else -1) = 0) := by
    cases c <;> simp
  replace h : m ∈ (match shift s 0 (if c = .white then 1 else -1) with
      | none => []
      | some t =>
        if b.empty t then
          pawnTargets c s t ++
            (if s / 8 = (if c = .white then 1 else 6) then
              match shift s 0 (2 * (if c = .white then 1 else -1)) with
              | some t2 => if b.empty t2 then [Move.mk s t2 none] else []
              | none => []
            else [])
        else []) ++
      ([(-1 : Int), 1].foldr (fun df acc =>
        (match shift s df (if c = .white then 1 else -1) with
         | none => []
         | some t =>
           if b.enemyAt c t || (b.ep = some t && b.empty t) then
             pawnTargets c s t
           else []) ++ acc) []) := h
  rcases List.mem_append.mp h with h | h
  · cases hs : shift s 0 (if c = .white then 1 else -1) with
    | none => rw [hs] at h; exact absurd h (by simp)
    | some t =>
      rw [hs] at h
      replace h : m ∈ (if b.empty t then
          pawnTargets c s t ++
            (if s / 8 = (if c = .white then 1 else 6) then
              match shift s 0 (2 * (if c = .white then 1 else -1)) with
              | some t2 => if b.empty t2 then [Move.mk s t2 none] else []
              | none => []
            else [])
        else []) := h
      split at h
      · rcases List.mem_append.mp h with h | h
        · obtain ⟨hf, ht⟩ := pawnTargets_shape h
          obtain ⟨hlt, _, _⟩ := shift_file_rank hs
          exact ⟨hf, ht ▸ hlt, ht ▸ shift_ne hs hdir⟩
        · by_cases hsr : s / 8 = (if c = .white then 1 else 6)
          · rw [if_pos hsr] at h
            cases hs2 : shift s 0 (2 * (if c = .white then 1 else -1)) with
            | none => rw [hs2] at h; exact absurd h (by simp)
            | some t2 =>
              rw [hs2] at h
              replace h : m ∈ (if b.empty t2 then [Move.mk s t2 none] else []) := h
              split at h
              · rcases List.mem_singleton.mp h with rfl
                obtain ⟨hlt, _, _⟩ := shift_file_rank hs2
                refine ⟨rfl, hlt, shift_ne hs2 (by cases c <;> simp)⟩
              · exact absurd h (by simp)
          · rw [if_neg hsr] at h
            exact absurd h (by simp)
      · exact absurd h (by simp)
  · obtain ⟨d, hd, hx⟩ := mem_foldr_append
      (fun df : Int =>
        match shift s df (if c = .white then 1 else -1) with
        | none => []
        | some t =>
          if b.enemyAt c t || (b.ep = some t && b.empty t) then
            pawnTargets c s t
          else []) [-1, 1] m h
    cases hs : shift s d (if c = .white then 1 else -1) with
    | none => rw [hs] at hx; exact absurd hx (by simp)
    | some t =>
      rw [hs] at hx
      replace hx : m ∈ (if b.enemyAt c t || (b.ep = some t && b.empty t) then
          pawnTargets c s t
        else []) := hx
      split at hx
      · obtain ⟨hf, ht⟩ := pawnTargets_shape hx
        obtain ⟨hlt, _, _⟩ := shift_file_rank hs
        exact ⟨hf, ht ▸ hlt, ht ▸ shift_ne hs (by cases c <;> simp)⟩
      · exact absurd hx (by simp)

theorem castlingMoves_shape {b : Board} {m : Move} (h : m ∈ castlingMoves b) :
    (m.fromSq = 4 ∧ (m.toSq = 6 ∨ m.toSq = 2) ∨
      m.fromSq = 60 ∧ (m.toSq = 62 ∨ m.toSq = 58)) ∧ m.promo = none := by
  unfold castlingMoves at h
  split at h <;>
    rcases List.mem_append.mp h with h | h <;>
    split at h <;>
    simp only [List.mem_singleton, List.not_mem_nil] at h <;>
    first
      | exact h.elim
      | (subst h; exact ⟨by simp, rfl⟩)

theorem pieceMoves_shape {b : Board} {s : Nat} {m : Move}
    (h : m ∈ pieceMoves b s) : m.fromSq = s ∧ m.toSq < 64 ∧ m.toSq ≠ s := by
  unfold pieceMoves at h
  split at h
  · rename_i p hp
    split at h
    · rename_i hc
      obtain ⟨pc, pt⟩ := p
      cases pt
      · exact pawnMoves_shape h
      · exact jumpMoves_shape (by decide) h
      · exact slideMoves_shape (by decide) h
      · exact slideMoves_shape (by decide) h
      · exact slideMoves_shape (by decide) h
      · exact jumpMoves_shape (by decide) h
    · exact absurd h (by simp)
  · exact absurd h (by simp)

theorem legalMoves_shape {b : Board} {m : Move} (h : m ∈ b.legalMoves) :
    m.fromSq < 64 ∧ m.toSq < 64 ∧ m.fromSq ≠ m.toSq := by
  have hp : m ∈ b.pseudoMoves := List.mem_of_mem_filter h
  unfold Board.pseudoMoves at hp
  rcases List.mem_append.mp hp with hp | hp
  · obtain ⟨row, hrow, hm⟩ := List.mem_flatten.mp hp
    obtain ⟨s, hs, rfl⟩ := List.mem_map.mp hrow
    obtain ⟨hf, hlt, hne⟩ := pieceMoves_shape hm
    rw [hf]
    exact ⟨List.mem_range.mp hs, hlt, fun he => hne he.symm⟩
  · obtain ⟨hc, _⟩ := castlingMoves_shape hp
    rcases hc with ⟨hf, ht | ht⟩ | ⟨hf, ht | ht⟩ <;> rw [hf, ht] <;>
      exact ⟨by omega, by omega, by omega⟩

/-! ### UCI round trip -/

theorem symbolVal_pieceSymbol (pr : PieceType) :
    symbolVal (pieceSymbol pr) = some pr := by
  cases pr <;> rfl

theorem fileChar_ne_zero (n : Nat) : fileChar n ≠ '0' := by
  rcases fileChar_cases n with h | h | h | h | h | h | h | h <;> rw [h] <;> decide

theorem uci_ne_null_str (f : Nat) (rest : List Char) :
    String.mk (fileChar (f % 8) :: rest) ≠ "0000" := by
  intro he
  have hd : fileChar (f % 8) :: rest = ['0', '0', '0', '0'] :=
    congrArg String.data he
  injection hd with h0 _
  exact fileChar_ne_zero _ h0

theorem fromUci_uci {m : Move} (h1 : m.fromSq < 64) (h2 : m.toSq < 64)
    (h3 : m.fromSq ≠ m.toSq) : Move.fromUci m.uci = some m := by
  obtain ⟨f, t, pr⟩ := m
  replace h1 : f < 64 := h1
  replace h2 : t < 64 := h2
  replace h3 : f ≠ t := h3
  cases pr with
  | none =>
    have hnn : (Move.mk f t none) ≠ Move.null := by
      intro he
      have hf : f = 0 := congrArg Move.fromSq he
      have ht : t = 0 := congrArg Move.toSq he
      exact h3 (hf.trans ht.symm)
    have hstep : Move.uci (Move.mk f t none) =
        String.mk [fileChar (f % 8), rankChar (f / 8),
          fileChar (t % 8), rankChar (t / 8)] := by
      show (if Move.mk f t none = Move.null then "0000"
          else String.mk (squareNameChars f ++ squareNameChars t)) = _
      rw [if_neg hnn]
      rfl
    rw [hstep]
    have hrw : Move.fromUci (String.mk [fileChar (f % 8), rankChar (f / 8),
        fileChar (t % 8), rankChar (t / 8)]) =
        (if String.mk [fileChar (f % 8), rankChar (f / 8),
            fileChar (t % 8), rankChar (t / 8)] = "0000"
          then some Move.null
          else
            (parseSquareChars (fileChar (f % 8)) (rankChar (f / 8))).bind
              (fun s1 => (parseSquareChars (fileChar (t % 8)) (rankChar (t / 8))).bind
                (fun s2 => if s1 = s2 then none else some (Move.mk s1 s2 none)))) :=
      rfl
    rw [hrw, if_neg (uci_ne_null_str f _), parseSquare_name f h1,
      Option.some_bind, parseSquare_name t h2, Option.some_bind, if_neg h3]
  | some pr =>
    have hstep : Move.uci (Move.mk f t (some pr)) =
        String.mk [fileChar (f % 8), rankChar (f / 8),
          fileChar (t % 8), rankChar (t / 8), pieceSymbol pr] := rfl
    rw [hstep]
    have hrw : Move.fromUci (String.mk [fileChar (f % 8), rankChar (f / 8),
        fileChar (t % 8), rankChar (t / 8), pieceSymbol pr]) =
        (if String.mk [fileChar (f % 8), rankChar (f / 8),
            fileChar (t % 8), rankChar (t / 8), pieceSymbol pr] = "0000"
          then some Move.null
          else
            (parseSquareChars (fileChar (f % 8)) (rankChar (f / 8))).bind
              (fun s1 => (parseSquareChars (fileChar (t % 8)) (rankChar (t / 8))).bind
                (fun s2 => (symbolVal (pieceSymbol pr)).bind
                  (fun pr2 => if s1 = s2 then none
                    else some (Move.mk s1 s2 (some pr2)))))) :=
      rfl
    rw [hrw, if_neg (uci_ne_null_str f _), parseSquare_name f h1,
      Option.some_bind, parseSquare_name t h2, Option.some_bind,
      symbolVal_pieceSymbol pr, Option.some_bind, if_neg h3]

theorem fromUci_uci_null : Move.fromUci Move.null.uci = some Move.null := by
  decide

/-! ### Push is insensitive to the canonical en-passant restriction -/

theorem board_eta_ep (b : Board) : ({ b with ep := b.ep } : Board) = b := rfl

theorem isEnPassant_null (b : Board) : b.isEnPassant Move.null = false := by
  simp [Board.isEnPassant, Move.null]

theorem legalEp_none_isEnPassant_false {b : Board} {m : Move}
    (hl : b.legalEpSquare = none) (hm : m ∈ b.legalMoves) :
    b.isEnPassant m = false := by
  by_contra hcon
  rw [Bool.not_eq_false] at hcon
  have h1 : b.ep = some m.toSq := by
    have hcon2 := hcon
    unfold Board.isEnPassant at hcon2
    simp only [Bool.and_eq_true, decide_eq_true_eq] at hcon2
    exact hcon2.1.1.1
  have hsome : b.ep.isSome = true := by rw [h1]; rfl
  have hany : b.legalMoves.any (fun m2 => b.isEnPassant m2) = true :=
    List.any_eq_true.mpr ⟨m, hm, hcon⟩
  unfold Board.legalEpSquare at hl
  rw [if_pos (by simp [hsome, hany])] at hl
  rw [hl] at h1
  exact absurd h1 (by simp)

theorem push_ep_false {b : Board} {m : Move}
    (h1 : b.isEnPassant m = false) :
    Board.push { b with ep := none } m = b.push m := by
  have h0 : Board.isEnPassant { b with ep := none } m = false := by
    unfold Board.isEnPassant
    simp
  by_cases hnull : m = Move.null
  · subst hnull
    rfl
  · unfold Board.push
    dsimp only
    simp only [if_neg hnull]
    have hpa : Board.pieceAt { b with ep := none } m.fromSq =
        b.pieceAt m.fromSq := rfl
    rw [hpa]
    cases hpc : b.pieceAt m.fromSq with
    | none => rfl
    | some pc =>
      dsimp only
      rw [h0, h1,
        show Board.isCastling { b with ep := none } m = b.isCastling m from rfl,
        show Board.enemyAt { b with ep := none } b.turn m.toSq =
          b.enemyAt b.turn m.toSq from rfl]
      cases b.isCastling m with
      | false => rfl
      | true =>
        by_cases h6 : m.toSq % 8 = 6
        · simp only [h6]
          rfl
        · simp only [if_neg h6]
          rfl

theorem push_epCanon {b : Board} {m : Move}
    (hm : m = Move.null ∨ m ∈ b.legalMoves) :
    (epCanon b).push m = b.push m := by
  unfold epCanon
  cases hl : b.legalEpSquare with
  | some e =>
    have hbe : b.ep = some e := legalEpSquare_eq_some b e hl
    rw [← hbe, board_eta_ep]
  | none =>
    apply push_ep_false
    rcases hm with rfl | hm
    · exact isEnPassant_null b
    · exact legalEp_none_isEnPassant_false hl hm

theorem fen_ep_none {b : Board} (hl : b.legalEpSquare = none) :
    Board.fen { b with ep := none } = b.fen := by
  have h2 : Board.legalEpSquare { b with ep := none } = none := by
    unfold Board.legalEpSquare
    rw [if_neg]
    simp
  unfold Board.fen
  rw [h2, hl]
  rfl

theorem fen_epCanon (b : Board) : (epCanon b).fen = b.fen := by
  unfold epCanon
  cases hl : b.legalEpSquare with
  | some e =>
    have hbe : b.ep = some e := legalEpSquare_eq_some b e hl
    rw [← hbe, board_eta_ep]
  | none => exact fen_ep_none hl

/-! ### Well-formedness of parsed and standard boards -/

theorem fileVal_lt {c : Char} {f : Nat} (h : fileVal c = some f) : f < 8 := by
  revert h
  unfold fileVal
  split <;> intro h <;>
    first
    | (injection h with h; omega)
    | exact absurd h (by simp)

theorem rankVal_lt {c : Char} {r : Nat} (h : rankVal c = some r) : r < 8 := by
  revert h
  unfold rankVal
  split <;> intro h <;>
    first
    | (injection h with h; omega)
    | exact absurd h (by simp)

theorem parseSquareChars_lt {cf cr : Char} {s : Nat}
    (h : parseSquareChars cf cr = some s) : s < 64 := by
  unfold parseSquareChars at h
  simp only [Option.bind_eq_bind, Option.bind_eq_some] at h
  obtain ⟨f, hf, r, hr, hs⟩ := h
  have hf8 : f < 8 := fileVal_lt hf
  have hr8 : r < 8 := rankVal_lt hr
  replace hs : some (8 * r + f) = some s := hs
  injection hs with hs
  omega

theorem parseRank_length {cs : List Char} {r : List (Option Piece)}
    (h : parseRank cs = some r) : r.length = 8 := by
  replace h : (parseRankAux cs false).bind
      (fun r0 => if r0.length = 8 then some r0 else none) = some r := h
  simp only [Option.bind_eq_some] at h
  obtain ⟨r0, _, h⟩ := h
  by_cases h8 : r0.length = 8
  · rw [if_pos h8] at h
    injection h with h
    rw [← h]
    exact h8
  · rw [if_neg h8] at h
    exact absurd h (by simp)

theorem mapM_parseRank_lengths :
    ∀ (rows : List (List Char)) (parsed : List (List (Option Piece))),
      rows.mapM parseRank = some parsed →
      parsed.length = rows.length ∧ ∀ r ∈ parsed, r.length = 8 := by
  intro rows
  induction rows with
  | nil =>
    intro parsed h
    replace h : some [] = some parsed := h
    injection h with h
    subst h
    exact ⟨rfl, by intro r hr; exact absurd hr (by simp)⟩
  | cons cs rest ih =>
    intro parsed h
    rw [List.mapM_cons] at h
    simp only [Option.bind_eq_bind, Option.bind_eq_some, Option.pure_def,
      Option.some.injEq] at h
    obtain ⟨p, hp, ps, hps, hcons⟩ := h
    subst hcons
    obtain ⟨h1, h2⟩ := ih ps hps
    refine ⟨by simp [h1], ?_⟩
    intro r hr
    rcases List.mem_cons.mp hr with rfl | hr
    · exact parseRank_length hp
    · exact h2 r hr

theorem flatten_len8 : ∀ (l : List (List (Option Piece))),
    (∀ x ∈ l, x.length = 8) → l.flatten.length = 8 * l.length := by
  intro l
  induction l with
  | nil => intro _; rfl
  | cons x xs ih =>
    intro hx
    simp only [List.flatten_cons, List.length_append, List.length_cons]
    rw [ih (fun y hy => hx y (List.mem_cons_of_mem _ hy)),
      hx x (List.mem_cons_self _ _)]
    ring

theorem parseBoardChars_length {cs : List Char} {cells : List (Option Piece)}
    (h : parseBoardChars cs = some cells) : cells.length = 64 := by
  replace h : (if (splitOnChar '/' cs).length = 8 then
      ((splitOnChar '/' cs).mapM parseRank).bind
        (fun parsed => some parsed.reverse.flatten)
    else none) = some cells := h
  split at h
  · rename_i h8
    simp only [Option.bind_eq_some, Option.some.injEq] at h
    obtain ⟨parsed, hparsed, hcells⟩ := h
    subst hcells
    obtain ⟨hplen, hall⟩ := mapM_parseRank_lengths _ _ hparsed
    rw [flatten_len8 _ (by intro x hx; exact hall x (List.mem_reverse.mp hx))]
    rw [List.length_reverse, hplen, h8]
  · exact absurd h (by simp)

theorem parseEpField_lt {o : Option (List Char)} {e : Nat}
    (h : parseEpField o = some (some e)) : e < 64 := by
  cases o with
  | none =>
    replace h : some (none : Option Nat) = some (some e) := h
    injection h with h
    exact absurd h (by simp)
  | some cs =>
    replace h : (if cs = ['-'] then some none
      else
        match cs with
        | [cf, cr] => (parseSquareChars cf cr).map some
        | _ => none) = some (some e) := h
    by_cases hdash : cs = ['-']
    · rw [if_pos hdash] at h
      injection h with h
      exact absurd h (by simp)
    · rw [if_neg hdash] at h
      split at h
      · rename_i cf cr
        rw [Option.map_eq_some'] at h
        obtain ⟨s, hs, hse⟩ := h
        injection hse with hse
        subst hse
        exact parseSquareChars_lt hs
      · exact absurd h (by simp)

theorem parseFullmoveField_ge1 {o : Option (List Char)} {n : Nat}
    (h : parseFullmoveField o = some n) : 1 ≤ n := by
  cases o with
  | none =>
    replace h : some 1 = some n := h
    injection h with h
    omega
  | some cs =>
    replace h : (pyIntChars cs).bind
        (fun v => if v < 0 then none else some (max v.toNat 1)) = some n := h
    simp only [Option.bind_eq_some] at h
    obtain ⟨v, _, h⟩ := h
    split at h
    · exact absurd h (by simp)
    · injection h with h
      omega

theorem parseFen_WF {s : String} {b : Board} (h : parseFen s = some b) :
    b.WF := by
  replace h : (if (splitWs s.data).length = 0 ∨ 6 < (splitWs s.data).length
      then none
      else (parseBoardChars ((splitWs s.data).getD 0 [])).bind (fun cells =>
        (parseTurnField ((splitWs s.data).get? 1)).bind fun turn =>
        (parseCastleField ((splitWs s.data).get? 2)).bind fun c4 =>
        (parseEpField ((splitWs s.data).get? 3)).bind fun ep =>
        (parseHalfmoveField ((splitWs s.data).get? 4)).bind fun hm =>
        (parseFullmoveField ((splitWs s.data).get? 5)).bind fun fm =>
        some { cells := cells, turn := turn, castleWK := c4.1,
               castleWQ := c4.2.1, castleBK := c4.2.2.1, castleBQ := c4.2.2.2,
               ep := ep, halfmove := hm, fullmove := fm })) = some b := h
  split at h
  · exact absurd h (by simp)
  · simp only [Option.bind_eq_some, Option.some.injEq] at h
    obtain ⟨cells, hcells, turn, _, c4, _, ep, hep, hm, _, fm, hfm, hb⟩ := h
    subst hb
    refine ⟨parseBoardChars_length hcells, parseFullmoveField_ge1 hfm, ?_⟩
    intro e he
    replace he : ep = some e := he
    subst he
    exact parseEpField_lt hep

theorem startBoard_WF : startBoard.WF := by
  refine ⟨by decide, by decide, ?_⟩
  intro e he
  exact absurd he (by simp [startBoard, Option.mem_def])

theorem headerBoard_WF {hs : List (String × String)} {b : Board}
    (h : headerBoard hs = .ok b) : b.WF := by
  unfold headerBoard at h
  cases hf : lookupHeader hs "FEN" with
  | none =>
    rw [hf] at h
    replace h : (Except.ok startBoard : Except String Board) = .ok b := h
    injection h with h
    subst h
    exact startBoard_WF
  | some f =>
    rw [hf] at h
    replace h : (match parseFen f with
      | some b2 => (Except.ok b2 : Except String Board)
      | none => .error ("invalid fen: " ++ f)) = .ok b := h
    cases hp : parseFen f with
    | some b2 =>
      rw [hp] at h
      replace h : (Except.ok b2 : Except String Board) = .ok b := h
      injection h with h
      subst h
      exact parseFen_WF hp
    | none =>
      rw [hp] at h
      exact absurd h (by simp)

/-! ### Mainlines produced by the reader -/

theorem parseSan_sound {b : Board} {s : String} {m : Move}
    (h : b.parseSan s = .ok m) : m = Move.null ∨ m ∈ b.legalMoves := by
  unfold Board.parseSan at h
  by_cases h1 : s ∈ kingsideSanTokens
  · rw [if_pos h1] at h
    split at h
    · rename_i m2 rest heq
      injection h with h
      subst h
      exact .inr (List.mem_of_mem_filter
        (by rw [heq]; exact List.mem_cons_self m2 rest))
    · exact absurd h (by simp)
  · rw [if_neg h1] at h
    by_cases h2 : s ∈ queensideSanTokens
    · rw [if_pos h2] at h
      split at h
      · rename_i m2 rest heq
        injection h with h
        subst h
        exact .inr (List.mem_of_mem_filter
          (by rw [heq]; exact List.mem_cons_self m2 rest))
      · exact absurd h (by simp)
    · rw [if_neg h2] at h
      by_cases h3 : s ∈ nullSanTokens
      · rw [if_pos h3] at h
        injection h with h
        exact .inl h.symm
      · rw [if_neg h3] at h
        split at h
        · exact absurd h (by simp)
        · rename_i pat heq2
          replace h : (match b.legalMoves.filter (fun mv =>
              b.pieceAt mv.fromSq = some ⟨b.turn, pat.piece.getD .pawn⟩ &&
              (pat.fromFile.all fun f => mv.fromSq % 8 = f) &&
              (pat.fromRank.all fun r => mv.fromSq / 8 = r) &&
              mv.toSq = pat.target &&
              !((b.pieceAt pat.target).any fun p => p.color = b.turn) &&
              mv.promo = pat.promo) with
            | [] => (Except.error ("illegal san: " ++ s) : Except String Move)
            | [mv] => Except.ok mv
            | _ => Except.error ("ambiguous san: " ++ s)) = .ok m := h
          split at h
          · exact absurd h (by simp)
          · rename_i mv heq3
            injection h with h
            subst h
            exact .inr (List.mem_of_mem_filter
              (by rw [heq3]; exact List.mem_cons_self mv []))
          · exact absurd h (by simp)

theorem walkTokens_mainlineOk : ∀ (ts : List String) (b : Board),
    mainlineOk b (walkTokens b ts).1 := by
  intro ts
  induction ts with
  | nil => intro b; exact trivial
  | cons t ts ih =>
    intro b
    unfold walkTokens
    by_cases hr : t ∈ resultTokens
    · rw [if_pos hr]; exact trivial
    · rw [if_neg hr]
      cases hp : b.parseSan t with
      | error e => exact trivial
      | ok m =>
        show (m = Move.null ∨ m ∈ b.legalMoves) ∧
          mainlineOk (b.push m) (walkTokens (b.push m) ts).1
        exact ⟨parseSan_sound hp, ih (b.push m)⟩

theorem readGame_mainlineOk {blk : GameBlock} {b0 : Board}
    (h : (readGame blk).board = .ok b0) :
    mainlineOk b0 (readGame blk).mainline := by
  cases hb : headerBoard (mergeHeaders blk.tags) with
  | error e =>
    have hg : readGame blk = ⟨mergeHeaders blk.tags, [e], []⟩ := by
      simp only [readGame]
      rw [hb]
    rw [hg]
    exact trivial
  | ok b1 =>
    have hg : readGame blk =
        ⟨mergeHeaders blk.tags, (walkTokens b1 blk.tokens).2,
         (walkTokens b1 blk.tokens).1⟩ := by
      simp only [readGame]
      rw [hb]
    have hh : b1 = b0 := by
      rw [hg] at h
      replace h : headerBoard (mergeHeaders blk.tags) = .ok b0 := h
      rw [hb] at h
      exact Except.ok.inj h
    subst hh
    rw [hg]
    show mainlineOk b1 (walkTokens b1 blk.tokens).1
    exact walkTokens_mainlineOk blk.tokens b1

/-! ### The SAN/UCI walk and the replay -/

theorem sanWalk_spec : ∀ (ms : List Move) (b : Board),
    (sanWalk b ms).1.length = ms.length ∧
    (sanWalk b ms).2.1 = ms.map Move.uci ∧
    (sanWalk b ms).2.2 = ms.foldl Board.push b := by
  intro ms
  induction ms with
  | nil => intro b; exact ⟨rfl, rfl, rfl⟩
  | cons m ms ih =>
    intro b
    obtain ⟨h1, h2, h3⟩ := ih (b.push m)
    refine ⟨?_, ?_, ?_⟩
    · show (b.san m :: (sanWalk (b.push m) ms).1).length = ms.length + 1
      rw [List.length_cons, h1]
    · show m.uci :: (sanWalk (b.push m) ms).2.1 = m.uci :: ms.map Move.uci
      rw [h2]
    · show (sanWalk (b.push m) ms).2.2 = ms.foldl Board.push (b.push m)
      exact h3

theorem fromUci_uci_of_ok {b : Board} {m : Move}
    (hm : m = Move.null ∨ m ∈ b.legalMoves) : Move.fromUci m.uci = some m := by
  rcases hm with rfl | hm
  · exact fromUci_uci_null
  · obtain ⟨h1, h2, h3⟩ := legalMoves_shape hm
    exact fromUci_uci h1 h2 h3

theorem replayUci_mainline : ∀ (ms : List Move) (b : Board),
    mainlineOk b ms →
    replayUci b (ms.map Move.uci) = some (ms.foldl Board.push b) := by
  intro ms
  induction ms with
  | nil => intro b _; rfl
  | cons m ms ih =>
    intro b h
    obtain ⟨hm, hrest⟩ := h
    show (match Move.fromUci m.uci with
      | some m2 => replayUci (b.push m2) (ms.map Move.uci)
      | none => none) = some ((m :: ms).foldl Board.push b)
    rw [fromUci_uci_of_ok hm]
    show replayUci (b.push m) (ms.map Move.uci) =
      some (ms.foldl Board.push (b.push m))
    exact ih (b.push m) hrest

theorem replayFen_mainline {b : Board} {ms : List Move} (hwf : b.WF)
    (h : mainlineOk b ms) :
    replayFen b.fen (ms.map Move.uci) = some ((ms.foldl Board.push b).fen) := by
  show (parseFen b.fen).bind (fun b1 =>
      (replayUci b1 (ms.map Move.uci)).bind fun b2 => some b2.fen) =
    some ((ms.foldl Board.push b).fen)
  rw [parseFen_fen b hwf, Option.some_bind]
  cases ms with
  | nil =>
    show (some (epCanon b)).bind (fun b2 => some b2.fen) = some b.fen
    rw [Option.some_bind, fen_epCanon]
  | cons m ms2 =>
    obtain ⟨hm, hrest⟩ := h
    show ((match Move.fromUci m.uci with
      | some m2 => replayUci ((epCanon b).push m2) (ms2.map Move.uci)
      | none => none)).bind (fun b2 => some b2.fen) =
      some (((m :: ms2).foldl Board.push b).fen)
    rw [fromUci_uci_of_ok hm]
    show (replayUci ((epCanon b).push m) (ms2.map Move.uci)).bind
        (fun b2 => some b2.fen) =
      some ((ms2.foldl Board.push (b.push m)).fen)
    rw [push_epCanon hm, replayUci_mainline ms2 (b.push m) hrest,
      Option.some_bind]

/-! ### From the parse loop to the per-game invariants -/

theorem parseLoop_mem : ∀ (bs : List GameBlock) (i : Nat) (g : ParsedGame),
    g ∈ (parseLoop i bs).1 →
    ∃ blk ∈ bs, parseSingleGame (readGame blk) = .ok g := by
  intro bs
  induction bs with
  | nil => intro i g h; exact absurd h (by simp [parseLoop])
  | cons blk rest ih =>
    intro i g h
    unfold parseLoop at h
    cases hp : parseSingleGame (readGame blk) with
    | ok g2 =>
      rw [hp] at h
      replace h : g ∈ g2 :: (parseLoop (i + 1) rest).1 := h
      rcases List.mem_cons.mp h with rfl | h
      · exact ⟨blk, List.mem_cons_self _ _, hp⟩
      · obtain ⟨blk2, hblk2, hg⟩ := ih (i + 1) g h
        exact ⟨blk2, List.mem_cons_of_mem _ hblk2, hg⟩
    | error e =>
      rw [hp] at h
      replace h : g ∈ (parseLoop (i + 1) rest).1 := h
      obtain ⟨blk2, hblk2, hg⟩ := ih (i + 1) g h
      exact ⟨blk2, List.mem_cons_of_mem _ hblk2, hg⟩

theorem parseSingleGame_ok {g0 : Game} {g : ParsedGame}
    (h : parseSingleGame g0 = .ok g) :
    ∃ b0, g0.board = .ok b0 ∧
      g.moves = g0.mainline.map Move.uci ∧
      g.moves_san = (sanWalk b0 g0.mainline).1 ∧
      g.move_count = g0.mainline.length ∧
      g.fen_start = b0.fen ∧
      g.fen_final = (g0.mainline.foldl Board.push b0).fen := by
  unfold parseSingleGame at h
  cases hb : g0.board with
  | error e =>
    rw [hb] at h
    exact absurd h (by simp)
  | ok b0 =>
    rw [hb] at h
    replace h : Except.ok (⟨extractMetadata g0.headers,
        (sanWalk b0 g0.mainline).2.1,
        (sanWalk b0 g0.mainline).1,
        renderPgn g0.headers b0 (sanWalk b0 g0.mainline).1
          (resultOf g0.headers),
        b0.fen,
        (sanWalk b0 g0.mainline).2.2.fen,
        (sanWalk b0 g0.mainline).2.1.length⟩ : ParsedGame) =
      .ok g := h
    injection h with h
    subst h
    obtain ⟨h1, h2, h3⟩ := sanWalk_spec g0.mainline b0
    refine ⟨b0, rfl, h2, rfl, ?_, rfl, ?_⟩
    · show (sanWalk b0 g0.mainline).2.1.length = g0.mainline.length
      rw [h2, List.length_map]
    · show (sanWalk b0 g0.mainline).2.2.fen =
        (g0.mainline.foldl Board.push b0).fen
      rw [h3]

/-! ## Claim theorems -/

/-- C3: for every `ParsedGame` returned by `parse_pgn`, the UCI and SAN move
lists have the same length, which is `move_count`; both lists serialize one
and the same mainline move sequence (`moves` is its UCI rendering and
`moves_san` its position-wise SAN rendering from the game's start board);
and replaying `moves` from the position parsed from `fen_start` yields
exactly the position whose FEN is `fen_final`. -/
theorem pgn_parsed_game_invariants (blocks : List GameBlock) (maxGames : Nat)
    (g : ParsedGame) (hg : g ∈ (parse_pgn blocks maxGames).games) :
    g.moves.length = g.move_count ∧
    g.moves_san.length = g.move_count ∧
    (∃ b0 ms, g.fen_start = b0.fen ∧ g.moves = ms.map Move.uci ∧
      g.moves_san = (sanWalk b0 ms).1 ∧
      g.fen_final = (ms.foldl Board.push b0).fen) ∧
    replayFen g.fen_start g.moves = some g.fen_final := by
  have hg2 : g ∈ (parseLoop 1 (blocks.take maxGames)).1 := hg
  obtain ⟨blk, _, hok⟩ := parseLoop_mem _ 1 g hg2
  obtain ⟨b0, hb0, hmoves, hsans, hcount, hstart, hfinal⟩ :=
    parseSingleGame_ok hok
  have hwf : b0.WF := headerBoard_WF hb0
  have hml : mainlineOk b0 (readGame blk).mainline := readGame_mainlineOk hb0
  obtain ⟨hl1, _, _⟩ := sanWalk_spec (readGame blk).mainline b0
  refine ⟨?_, ?_, ⟨b0, (readGame blk).mainline, hstart, hmoves, hsans, hfinal⟩,
    ?_⟩
  · rw [hmoves, List.length_map, hcount]
  · rw [hsans, hl1, hcount]
  · rw [hstart, hmoves, hfinal]
    exact replayFen_mainline hwf hml

/-- Witness for C3: the game parsed from the concrete block `1. e4 *`
satisfies the invariants. -/
theorem pgn_parsed_game_invariants_witness :
    gameE4.moves.length = gameE4.move_count ∧
    gameE4.moves_san.length = gameE4.move_count ∧
    (∃ b0 ms, gameE4.fen_start = b0.fen ∧ gameE4.moves = ms.map Move.uci ∧
      gameE4.moves_san = (sanWalk b0 ms).1 ∧
      gameE4.fen_final = (ms.foldl Board.push b0).fen) ∧
    replayFen gameE4.fen_start gameE4.moves = some gameE4.fen_final :=
  pgn_parsed_game_invariants [blockE4] 100 gameE4 (by decide)

/-- C6 (code_bug): `_parse_date` replaces each `?` character by the two
characters `01`, so the standard PGN placeholder date `2023.??.??` becomes
`2023.0101.0101`, month 101 fails the `datetime` constructor, and the
function returns `None` — not the claimed year-2023, month-01, day-01 date.
The full placeholder and genuinely unparseable strings do map to `None`,
and a date whose unknown components use a single `?` gets the intended
01-substitution. -/
theorem date_placeholder_bug :
    parse_date (some "2023.??.??") = none ∧
    parse_date (some "????.??.??") = none ∧
    parse_date (some "2023.garbage.01") = none ∧
    parse_date (some "2023.?.?") = some ⟨2023, 1, 1⟩ ∧
    parse_date (some "2023.01.15") = some ⟨2023, 1, 15⟩ := by
  refine ⟨?_, ?_, ?_, ?_, ?_⟩ <;> decide

/-- C2 (counterexample): the schedule that alternates the protocol commands
of two concurrent `analyze_position` calls is a merge of their event traces,
respects the session lock discipline (the analyze trace contains no lock
event at all, since the source acquires `self._lock` only in `start`/`stop`),
and interleaves the two requests' commands — so the exclusive-access guard
does not serialize concurrent analyses. -/
theorem engine_lock_counterexample :
    isMerge (analyzeEvents 1) (analyzeEvents 2) interleavedSchedule = true ∧
    lockOk none interleavedSchedule = true ∧
    serializedCmds interleavedSchedule = false ∧
    (analyzeEvents 1).filter isLockEvt = [] := by
  refine ⟨?_, ?_, ?_, ?_⟩ <;> decide

/-- C2 (amended): `analyze_position` performs no lock operation — the
session's exclusive-access guard brackets only `start` and `stop` — so the
lock discipline admits every interleaving of two concurrent `analyze`
traces, including ones whose protocol commands interleave; the guard
provides no serialization or ordering for analyses. -/
theorem engine_analyze_unguarded :
    (∀ w, (analyzeEvents w).all (fun e => !isLockEvt e) = true) ∧
    (∀ w, startEvents w = [.acquire w, .spawn w, .release w] ∧
      stopEvents w = [.acquire w, .quit w, .release w]) ∧
    (∀ (l : List SessEvt) (w1 w2 : Nat),
      isMerge (analyzeEvents w1) (analyzeEvents w2) l = true →
        lockOk none l = true) := by
  refine ⟨fun w => rfl, fun w => ⟨rfl, rfl⟩, ?_⟩
  intro l w1 w2 hm
  exact lockOk_of_no_lock_events l none
    (isMerge_all l (analyzeEvents w1) (analyzeEvents w2) hm rfl rfl)

/-- C2 witness: the amended theorem applied to a concrete merge. -/
theorem engine_analyze_unguarded_witness :
    lockOk none serialSchedule = true :=
  engine_analyze_unguarded.2.2 serialSchedule 1 2 (by decide)

/-- C9: `analyze_position` fails with the not-ready error whenever the
engine process is not started, and with the invalid-FEN error whenever the
FEN does not parse; in both cases the session state is returned unchanged
and no protocol command is issued. -/
theorem engine_analyze_error_paths :
    ∀ (s : EngineState) (fen : String) (depth multipv : Nat)
      (infos : List InfoDict),
      (s.engine = none →
        analyze_position s fen depth multipv infos =
          (.error (.engineNotReady "Engine not started. Call start() first."),
           s, [])) ∧
      (s.engine ≠ none → parseFen fen = none →
        analyze_position s fen depth multipv infos =
          (.error (.invalidFen ("Invalid FEN: " ++ fen)), s, [])) := by
  intro s fen depth multipv infos
  constructor
  · intro h
    simp [analyze_position, h]
  · intro h hfen
    rcases he : s.engine with _ | u
    · exact absurd he h
    · simp [analyze_position, he, hfen]

/-- C9 witness: both error paths at concrete inputs. -/
theorem engine_analyze_error_paths_witness :
    analyze_position ⟨"/usr/games/stockfish", none⟩ "x" 20 1 [] =
      (.error (.engineNotReady "Engine not started. Call start() first."),
       ⟨"/usr/games/stockfish", none⟩, []) ∧
    analyze_position ⟨"/usr/games/stockfish", some ()⟩ "not a fen" 20 1 [] =
      (.error (.invalidFen "Invalid FEN: not a fen"),
       ⟨"/usr/games/stockfish", some ()⟩, []) :=
  ⟨(engine_analyze_error_paths ⟨"/usr/games/stockfish", none⟩ "x" 20 1 []).1 rfl,
   (engine_analyze_error_paths ⟨"/usr/games/stockfish", some ()⟩ "not a fen"
      20 1 []).2 (by simp) (by decide)⟩

/-- C5: the decoder yields at most one candidate per principal-variation
slot, a slot whose payload carries no principal variation decodes to
nothing, a slot without a score decodes to nothing, and on the concrete
two-slot input where slot 2 arrives without a PV payload exactly one
candidate is returned, with rank 1. -/
theorem engine_decode_per_slot :
    (∀ (infos : List InfoDict) (board : Board),
      (decodeInfos infos board).length ≤ infos.length) ∧
    (∀ (info : InfoDict) (board : Board) (i : Nat),
      info.pv.getD [] = [] → parseAnalysisInfo info board i = none) ∧
    (∀ (info : InfoDict) (board : Board) (i : Nat),
      info.score = none → parseAnalysisInfo info board i = none) ∧
    decodeInfos [slotOne, slotTwo] startBoard = [slotOneBest] := by
  refine ⟨?_, ?_, ?_, by decide⟩
  · intro infos board
    calc (decodeInfos infos board).length
        ≤ infos.enum.length := List.length_filterMap_le _ _
      _ = infos.length := List.enum_length
  · intro info board i hpv
    unfold parseAnalysisInfo
    rcases hs : info.score with _ | s
    · rfl
    · rw [hpv]
  · intro info board i hs
    unfold parseAnalysisInfo
    rw [hs]

/-- C5 witness: the discard clauses at concrete inputs. -/
theorem engine_decode_per_slot_witness :
    parseAnalysisInfo slotTwo startBoard 2 = none ∧
    parseAnalysisInfo noScoreSlot startBoard 1 = none :=
  ⟨engine_decode_per_slot.2.1 slotTwo startBoard 2 rfl,
   engine_decode_per_slot.2.2.1 noScoreSlot startBoard 1 rfl⟩

/-- C4: every decoded candidate's score is the tagged union taken from the
engine score's `relative` value — tag "mate" with the (possibly negative)
mate distance when the engine reports a mate, tag "cp" with the centipawn
value otherwise — i.e. expressed for the side to move of the analyzed
position, and the negation of the White-absolute value whenever the side to
move is Black. -/
theorem engine_score_relative :
    ∀ (info : InfoDict) (board : Board) (i : Nat) (bm : BestMove),
      parseAnalysisInfo info board i = some bm →
      ∃ s, info.score = some s ∧
        bm.score = ⟨if s.relative.isMate then "mate" else "cp",
          s.relative.valueOf⟩ ∧
        bm.score.value = (s.pov s.turn).valueOf ∧
        (s.turn = .black → bm.score.value = -s.whitePov.valueOf) := by
  intro info board i bm h
  unfold parseAnalysisInfo at h
  split at h
  · exact absurd h (by simp)
  next s hs =>
    split at h
    · exact absurd h (by simp)
    next best restPv hpv =>
      split at h
      · exact absurd h (by simp)
      next san hsan =>
        simp only [Option.some.injEq] at h
        obtain ⟨rel, sturn⟩ := s
        refine ⟨⟨rel, sturn⟩, hs, ?_, ?_, ?_⟩
        · rw [← h]
          rcases rel with v | n <;>
            simp [Score.isMate, Score.valueOf, Score.mateVal, Score.cpVal]
        · rw [← h]
          rcases rel with v | n <;>
            simp [PovScore.pov, Score.isMate, Score.valueOf, Score.mateVal,
              Score.cpVal]
        · intro hturn
          simp only at hturn
          rw [← h]
          rcases rel with v | n <;>
            simp [PovScore.whitePov, PovScore.pov, hturn, Score.neg,
              Score.isMate, Score.valueOf, Score.mateVal, Score.cpVal]

/-- C4 witness: a concrete record with a negative mate distance for the
side to move decodes to the tag "mate" with value -3. -/
theorem engine_score_relative_witness :
    ∃ s, mateInfo.score = some s ∧
      mateInfoBest.score = ⟨if s.relative.isMate then "mate" else "cp",
        s.relative.valueOf⟩ ∧
      mateInfoBest.score.value = (s.pov s.turn).valueOf ∧
      (s.turn = .black → mateInfoBest.score.value = -s.whitePov.valueOf) :=
  engine_score_relative mateInfo startBoard 1 mateInfoBest (by decide)

/-- C1 (counterexample): the PGN reader is forgiving — an illegal SAN token
such as `Kxe2` is collected on the game's own error list and the rest of
that game's movetext is skipped, so `_parse_single_game` receives a
truncated game and succeeds.  The one-block `Kxe2` input therefore yields
`games_parsed = 1`, an empty `errors` list and `success = true`, not the
claimed `0` / one error / `false`. -/
theorem pgn_parse_kxe2_counterexample :
    (parse_pgn [blockKxe2] 100).games_parsed = 1 ∧
    (parse_pgn [blockKxe2] 100).errors = [] ∧
    (parse_pgn [blockKxe2] 100).success = true ∧
    ¬((parse_pgn [blockKxe2] 100).games_parsed = 0 ∧
      (parse_pgn [blockKxe2] 100).errors.length = 1 ∧
      (parse_pgn [blockKxe2] 100).success = false) := by
  refine ⟨?_, ?_, ?_, ?_⟩ <;> decide

/-- C1 (amended): with `max_games` at least the number of blocks, `parse`
returns `games_parsed == N - K`, a games list of length `N - K` and an
errors list of length `K`, where `K` counts the blocks whose game
EXTRACTION fails (e.g. an invalid `FEN` header) — not the blocks containing
an illegal move: the reader swallows illegal-move errors and `parse` imports
such games truncated.  `success` is `games_parsed > 0`.  In particular the
`Kxe2` block does not fail extraction: it yields `games_parsed = 1`, no
error message and `success = true`. -/
theorem pgn_parse_batch_counts :
    ∀ (blocks : List GameBlock) (maxGames : Nat),
      blocks.length ≤ maxGames →
      (parse_pgn blocks maxGames).games_parsed =
        (parse_pgn blocks maxGames).games.length ∧
      (parse_pgn blocks maxGames).games.length +
        (parse_pgn blocks maxGames).errors.length = blocks.length ∧
      (parse_pgn blocks maxGames).errors.length =
        (blocks.filter extractionFails).length ∧
      ((parse_pgn blocks maxGames).success = true ↔
        0 < (parse_pgn blocks maxGames).games_parsed) ∧
      extractionFails blockKxe2 = false ∧
      (parse_pgn [blockKxe2] 100).games_parsed = 1 ∧
      (parse_pgn [blockKxe2] 100).errors = [] ∧
      (parse_pgn [blockKxe2] 100).success = true := by
  intro blocks maxGames hlen
  have htake : blocks.take maxGames = blocks := List.take_of_length_le hlen
  obtain ⟨h1, h2⟩ := parseLoop_counts (blocks.take maxGames) 1
  rw [htake] at h1 h2
  refine ⟨rfl, ?_, ?_, ?_, by decide, by decide, by decide, by decide⟩
  · simpa [parse_pgn, htake] using h1
  · simpa [parse_pgn, htake] using h2
  · simp only [parse_pgn]
    cases (parseLoop 1 (blocks.take maxGames)).1 <;> simp

/-- C1 witness: the amended counting law at a two-block input of which one
block (an invalid `FEN` header) fails extraction. -/
theorem pgn_parse_batch_counts_witness :
    (parse_pgn [blockE4, blockBadFen] 100).games.length +
      (parse_pgn [blockE4, blockBadFen] 100).errors.length = 2 ∧
    (parse_pgn [blockE4, blockBadFen] 100).errors.length =
      ([blockE4, blockBadFen].filter extractionFails).length :=
  ⟨(pgn_parse_batch_counts [blockE4, blockBadFen] 100 (by decide)).2.1,
   (pgn_parse_batch_counts [blockE4, blockBadFen] 100 (by decide)).2.2.1⟩

/-- C10: `validate_pgn` is total by construction (every exception path of
the source is modelled as caught, and the embedding returns a pair on every
input); it returns `(true, none)` exactly when a game can be read from the
input (a first block exists), its start board can be built, and every
mainline move is legal in its successive position; otherwise it returns
`(false, m)` for some non-none message `m`. -/
theorem validate_pgn_total_iff (blocks : List GameBlock) :
    (validate_pgn blocks = (true, none) ↔
      ∃ blk b0, blocks.head? = some blk ∧ (readGame blk).board = .ok b0 ∧
        allLegalAlong b0 (readGame blk).mainline) ∧
    ((validate_pgn blocks).1 = false →
      ∃ msg, (validate_pgn blocks).2 = some msg) ∧
    ((validate_pgn blocks).1 = true → (validate_pgn blocks).2 = none) := by
  cases blocks with
  | nil =>
    refine ⟨?_, ?_, ?_⟩
    · simp [validate_pgn]
    · intro _; exact ⟨"No valid game found in PGN", rfl⟩
    · intro h; simp [validate_pgn] at h
  | cons blk rest =>
    have hv0 : validate_pgn (blk :: rest) =
        (match (readGame blk).board with
         | .error e => (false, some e)
         | .ok b0 => validateLoop b0 (readGame blk).mainline) := rfl
    cases hb : (readGame blk).board with
    | error e =>
      have hv : validate_pgn (blk :: rest) = (false, some e) := by
        rw [hv0, hb]
      refine ⟨?_, ?_, ?_⟩
      · rw [hv]
        constructor
        · intro h; exact absurd h (by simp)
        · rintro ⟨blk', b0, hhead, hboard, _⟩
          simp only [List.head?_cons, Option.some.injEq] at hhead
          subst hhead
          rw [hb] at hboard
          exact absurd hboard (by simp)
      · intro _; rw [hv]; exact ⟨e, rfl⟩
      · intro h; rw [hv] at h; simp at h
    | ok b0 =>
      have hv : validate_pgn (blk :: rest) =
          validateLoop b0 (readGame blk).mainline := by
        rw [hv0, hb]
      refine ⟨?_, ?_, ?_⟩
      · rw [hv, validateLoop_true_iff]
        constructor
        · intro h; exact ⟨blk, b0, rfl, hb, h⟩
        · rintro ⟨blk', b0', hhead, hboard, hall⟩
          simp only [List.head?_cons, Option.some.injEq] at hhead
          subst hhead
          rw [hb] at hboard
          simp only [Except.ok.injEq] at hboard
          subst hboard
          exact hall
      · intro h
        rcases validateLoop_shape (readGame blk).mainline b0 with hsh |
            ⟨msg, hsh⟩
        · rw [hv, hsh] at h; simp at h
        · rw [hv, hsh]; exact ⟨msg, rfl⟩
      · intro h
        rcases validateLoop_shape (readGame blk).mainline b0 with hsh |
            ⟨msg, hsh⟩
        · rw [hv, hsh]
        · rw [hv, hsh] at h; simp at h

/-- C7: `export_to_pgn` never fails on account of a move — whenever the
start FEN parses (or none is given), it returns a result whose movetext is
the single mainline of exactly the moves that were applied legally in
sequence (rendered in SAN, followed by the result token), with one recorded
warning per move that was malformed or illegal at its point in the
sequence. -/
theorem export_skips_invalid_moves :
    ∀ (moves : List String)
      (metadata : Option (List (String × Option String)))
      (fen_start : Option String) (b0 : Board),
      exportStartBoard fen_start = .ok b0 →
      ∃ out, export_to_pgn moves metadata fen_start = .ok out ∧
        out.sans = (sanWalk b0 (appliedMoves b0 moves)).1 ∧
        out.warnings.length + (appliedMoves b0 moves).length = moves.length ∧
        out.movetext = out.sans ++ [out.result] := by
  intro moves md f b0 hb
  obtain ⟨h1, h2⟩ := exportLoop_spec moves b0
  unfold export_to_pgn
  rw [hb]
  exact ⟨_, rfl, h1, h2, rfl⟩

/-- C7 witness: exporting a list with one malformed and one illegal move
applies the two legal ones and records two warnings. -/
theorem export_skips_invalid_moves_witness :
    ∃ out, export_to_pgn ["e2e4", "zzzz", "e7e5", "e2e4"] none none =
        .ok out ∧
      out.sans =
        (sanWalk startBoard
          (appliedMoves startBoard ["e2e4", "zzzz", "e7e5", "e2e4"])).1 ∧
      out.warnings.length +
        (appliedMoves startBoard ["e2e4", "zzzz", "e7e5", "e2e4"]).length =
          4 ∧
      out.movetext = out.sans ++ [out.result] :=
  export_skips_invalid_moves ["e2e4", "zzzz", "e7e5", "e2e4"] none none
    startBoard rfl

/-- C8 (counterexample): `chess.pgn.Game()` always carries the seven tag
roster with placeholder values, so an export with NO metadata set still
contains an `[Event "?"]` tag line — unset fields do produce tag lines,
contradicting the claim. -/
theorem export_headers_counterexample :
    export_to_pgn [] none none =
      .ok ⟨defaultHeaders, [], "*", []⟩ ∧
    ("Event", "?") ∈ defaultHeaders ∧
    ¬ mdSets none "Event" := by
  refine ⟨rfl, by decide, ?_⟩
  rintro ⟨v, hv⟩
  simp [Option.getD] at hv

/-- C8 (amended): the exported text carries a tag line for every roster key
always (with placeholder values when unset); beyond the roster, a tag line
appears only for metadata fields that are set, plus the `SetUp`/`FEN` pair
when a non-standard start FEN is supplied; and the movetext is the flat
single mainline followed by the result token — no inline comments, no
variation branches. -/
theorem export_headers_amended :
    ∀ (moves : List String)
      (md : Option (List (String × Option String)))
      (f : Option String) (b0 : Board),
      exportStartBoard f = .ok b0 →
      ∃ out, export_to_pgn moves md f = .ok out ∧
        out.headers = exportHeaders md f ∧
        (∀ k, k ∈ rosterKeys → ∃ v, (k, v) ∈ out.headers) ∧
        (∀ k v, (k, v) ∈ out.headers →
          k ∈ rosterKeys ∨ mdSets md k ∨
            ((k = "SetUp" ∨ k = "FEN") ∧ nonStdFen f)) ∧
        out.movetext = out.sans ++ [out.result] := by
  intro moves md f b0 hb
  unfold export_to_pgn
  rw [hb]
  refine ⟨_, rfl, rfl, ?_, ?_, rfl⟩
  · intro k hk
    exact roster_mem_exportHeaders md f k hk
  · intro k v hv
    exact exportHeaders_key_origin md f k v hv

/-- C8 witness: the amended description at a concrete export with one set
metadata field, one unset one, and no custom FEN. -/
theorem export_headers_amended_witness :
    ∃ out, export_to_pgn ["e2e4"] (some [("White", some "Alice"), ("ECO", none)])
        none = .ok out ∧
      out.headers = exportHeaders (some [("White", some "Alice"), ("ECO", none)]) none ∧
      (∀ k, k ∈ rosterKeys → ∃ v, (k, v) ∈ out.headers) ∧
      (∀ k v, (k, v) ∈ out.headers →
        k ∈ rosterKeys ∨
          mdSets (some [("White", some "Alice"), ("ECO", none)]) k ∨
          ((k = "SetUp" ∨ k = "FEN") ∧ nonStdFen none)) ∧
      out.movetext = out.sans ++ [out.result] :=
  export_headers_amended ["e2e4"] (some [("White", some "Alice"), ("ECO", none)])
    none startBoard rfl

/-- C10 witness: validation succeeds on the one-game block `1. e4 *`. -/
theorem validate_pgn_total_iff_witness :
    validate_pgn [blockE4] = (true, none) :=
  (validate_pgn_total_iff [blockE4]).1.mpr
    ⟨blockE4, startBoard, rfl, rfl,
      show allLegalAlong startBoard [⟨12, 28, none⟩] from ⟨by decide, trivial⟩⟩

end Elucidate
